import Mathlib

/-!
Verification of the ytpbackup forum archiver.

This file is a shallow embedding, in Lean 4, of the parts of the repository
(`scraper.py` and `yt_downloader.py`) that the specification's testable
properties talk about:

* the URL classifier (`get_thread_id`, `get_forum_id`, `should_skip`, ...),
* listing discovery (`ForumScraper.discover_threads`) and thread-page
  discovery (`ForumScraper.discover_thread_pages`),
* saving a thread (`ForumScraper.save_thread`) and the per-section main loop
  (`ForumScraper.run`), with the filesystem modelled as a map from output
  paths to file sizes and the rendering engine as an oracle
  `QUrl → Option Html`,
* the image fallback download and embedding step
  (`ForumScraper._download_image_requests`, `_embed_images_in_html`),
* the video reference index (`VideoIndex`).

Modelling conventions:

* A URL is modelled by its host and its parsed query parameters
  (`urllib.parse.parse_qs` keeps the first value per key when accessed via
  `[0]`; the model keeps one value per key, first occurrence wins).
* Python dictionaries are modelled as insertion-ordered association lists
  (`aupdate` replaces the unique entry for a key in place, or appends).
* `fetch_page` (a Playwright render followed by the optional image-embedding
  passes) is a collaborator; it is modelled as an oracle returning the final
  HTML, which the model represents as its anchor list plus the byte size of
  the serialized text.
* Python `int(...)` applied to a query-parameter string is modelled by
  `str_toInt`; a value on which `int` would raise `ValueError` yields no
  candidate in the model (the Python process would crash there, a behaviour
  outside every claim considered here). String manipulation is carried out
  over character lists so that every definition reduces inside the kernel.
-/

namespace YtpBackup

/-! ### Association-list infrastructure (Python `dict` semantics) -/

def alookup {α β : Type} [DecidableEq α] : List (α × β) → α → Option β
  | [], _ => none
  | e :: rest, k => if e.1 = k then some e.2 else alookup rest k

def aupdate {α β : Type} [DecidableEq α] : List (α × β) → α → β → List (α × β)
  | [], k, v => [(k, v)]
  | e :: rest, k, v => if e.1 = k then (k, v) :: rest else e :: aupdate rest k v

def amodify {α β : Type} [DecidableEq α] : List (α × β) → α → (β → β) → List (α × β)
  | [], _, _ => []
  | e :: rest, k, f => if e.1 = k then (e.1, f e.2) :: rest else e :: amodify rest k f

/-! ### URL model and classifier (`scraper.py` helpers) -/

/-- A URL, modelled by its host (`urlparse(url).netloc`) and its parsed query
string (`parse_qs`, one value per key, first occurrence wins). Scheme and path
play no role in the classifier functions under verification. -/
structure QUrl where
  host : String
  params : List (String × String)
deriving DecidableEq

def getParam (u : QUrl) (k : String) : Option String :=
  alookup u.params k

def BASE_DOMAIN : String := "youtubepoopita.forumfree.it"

def listContainsChars (pat : List Char) : List Char → Bool
  | [] => pat.isEmpty
  | c :: rest => pat.isPrefixOf (c :: rest) || listContainsChars pat rest

/-- Python `pat in s` substring test. -/
def strContains (hay pat : String) : Bool :=
  listContainsChars pat.toList hay.toList

/-- `s.lower()`. Implemented over the character list (the byte-position-based
`String.toLower` of core does not reduce inside the kernel). -/
def strLower (s : String) : String :=
  String.mk (s.toList.map Char.toLower)

def strIsPrefixOf (p s : String) : Bool :=
  p.toList.isPrefixOf s.toList

/-- `s.startswith(p)`. -/
def strStartsWith (s p : String) : Bool :=
  strIsPrefixOf p s

/-- `s.strip()`. -/
def strTrim (s : String) : String :=
  String.mk
    (((s.toList.dropWhile Char.isWhitespace).reverse.dropWhile
      Char.isWhitespace).reverse)

/-- The text before the first occurrence of `c` (the head of
`s.split(c)`). -/
def strUpToChar (c : Char) (s : String) : String :=
  String.mk (s.toList.takeWhile (fun x => x ≠ c))

def parseDigits : List Char → Nat → Option Nat
  | [], n => some n
  | c :: rest, n =>
    if c.isDigit then parseDigits rest (n * 10 + (c.toNat - '0'.toNat))
    else none

/-- Python `int(s)` on a query-parameter string: an optional minus sign
followed by decimal digits; any other shape raises `ValueError`, which the
model renders as `none` (the exception would abort the crawl, a behaviour
outside every claim considered here). -/
def str_toInt (s : String) : Option Int :=
  match s.toList with
  | [] => none
  | '-' :: rest =>
    if rest.isEmpty then none
    else (parseDigits rest 0).map (fun n => -(n : Int))
  | l => (parseDigits l 0).map (fun n => (n : Int))

/-- The suffix following the first occurrence of `pat`, if any. -/
def dropAfterSeq (pat : List Char) : List Char → Option (List Char)
  | [] => if pat.isEmpty then some [] else none
  | c :: rest =>
    if pat.isPrefixOf (c :: rest) then some ((c :: rest).drop pat.length)
    else dropAfterSeq pat rest

/-- `is_forum_url`: `BASE_DOMAIN in urlparse(url).netloc.lower()`. -/
def is_forum_url (u : QUrl) : Bool :=
  strContains (strLower u.host) BASE_DOMAIN

def SKIP_ACT_VALUES : List String :=
  ["profile", "reg", "login", "logout", "report", "trackprefs", "xmlout",
   "rss", "msg", "mail", "calendar", "help", "search", "stats", "online",
   "forward"]

def SKIP_DO_VALUES : List String := ["cfrm", "report", "new_post"]

/-- `should_skip`: the deny-list `SKIP_PATTERNS` of lowercase substring
signatures (`act=Profile`, ..., `do=cfrm`, ..., `showuser=`, `CODE=`, `pid=`),
modelled over the parsed query: a pattern `k=v` matches a parameter whose key
is `k` and whose value starts with `v` (case-insensitively), and a bare `k=`
pattern matches the presence of key `k`. -/
def should_skip (u : QUrl) : Bool :=
  u.params.any (fun p =>
    (decide (strLower p.1 = "act") &&
      SKIP_ACT_VALUES.any (fun v => strIsPrefixOf v (strLower p.2))) ||
    (decide (strLower p.1 = "do") &&
      SKIP_DO_VALUES.any (fun v => strIsPrefixOf v (strLower p.2))) ||
    decide (strLower p.1 = "showuser") || decide (strLower p.1 = "code") ||
    decide (strLower p.1 = "pid"))

/-- `get_thread_id`: the `t` query parameter (or `None`). -/
def get_thread_id (u : QUrl) : Option String := getParam u "t"

/-- `get_forum_id`: the `f` query parameter (or `None`). -/
def get_forum_id (u : QUrl) : Option String := getParam u "f"

/-- `is_thread_url`: has a thread id and is not deny-listed. -/
def is_thread_url (u : QUrl) : Bool :=
  (get_thread_id u).isSome && !should_skip u

/-- A raw link as it appears in an `href` attribute. `normalize_url` resolves
it against the page URL and strips the fragment; the model carries the
already-resolved absolute URL in `url` and records in `bad` whether the raw
text was empty or used a non-navigable scheme (`#...`, `javascript:`,
`mailto:`, `tel:`, `data:`), in which case `normalize_url` returns `None`. -/
structure RawLink where
  bad : Bool
  url : QUrl
deriving DecidableEq

def normalize_url (l : RawLink) : Option QUrl :=
  if l.bad then none else some l.url

/-- An `<a>` element of a rendered page: its href and its
`get_text(strip=True)` text. -/
structure Anchor where
  href : RawLink
  text : String
deriving DecidableEq

/-- A rendered page, as consumed by the crawler: the anchors BeautifulSoup
finds in it, plus the byte size of the serialized HTML (what
`os.path.getsize` reports after the text is written to disk). -/
structure Html where
  anchors : List Anchor
  size : Nat
deriving DecidableEq

/-- The `st` pagination parameter of a URL, parsed by Python `int(...)`. -/
def st_of (u : QUrl) : Option Int :=
  (getParam u "st").bind str_toInt

/-- `int(parse_qs(urlparse(page_url).query).get("st", [0])[0])`: the current
listing page's pagination offset, `0` when absent. -/
def current_st (u : QUrl) : Int :=
  match getParam u "st" with
  | none => 0
  | some s => (str_toInt s).getD 0

/-! ### Listing discovery (`ForumScraper.discover_threads`) -/

/-- `f"https://{BASE_DOMAIN}/?t={tid}"`: the canonical thread URL built for
every discovered thread. -/
def base_thread_url (tid : String) : QUrl :=
  ⟨BASE_DOMAIN, [("t", tid)]⟩

/-- The first `for a in soup.find_all("a", href=True)` loop of
`discover_threads`: collect unseen thread links, in document order, into the
ordered map `threads`; the Boolean accumulator is `found_new`. -/
def collect_threads : List Anchor → List (QUrl × String) → Bool →
    List (QUrl × String) × Bool
  | [], acc, fn => (acc, fn)
  | a :: rest, acc, fn =>
    match normalize_url a.href with
    | none => collect_threads rest acc fn
    | some href =>
      if is_forum_url href && is_thread_url href then
        let tid := (get_thread_id href).getD ""
        let bt := base_thread_url tid
        if acc.any (fun p => p.1 = bt) then
          collect_threads rest acc fn
        else
          collect_threads rest
            (acc ++ [(bt, if a.text = "" then "Thread " ++ tid else a.text)]) true
      else collect_threads rest acc fn

/-- The per-anchor test of the "find next listing page" loop: a qualifying
anchor resolves to a URL whose `f` parameter equals the section's forum id,
which carries an `st` parameter, and whose offset is strictly greater than
the current page's offset. -/
def next_candidate (forum_id : Option String) (cst : Int) (a : Anchor) :
    Option QUrl :=
  match normalize_url a.href with
  | none => none
  | some href =>
    if get_forum_id href = forum_id then
      match st_of href with
      | some stv => if cst < stv then some href else none
      | none => none
    else none

/-- The second `for a in soup.find_all(...)` loop of `discover_threads`: the
first qualifying next-page link in document order wins (`break`). -/
def find_next (forum_id : Option String) (cst : Int) : List Anchor → Option QUrl
  | [] => none
  | a :: rest =>
    match next_candidate forum_id cst a with
    | some u => some u
    | none => find_next forum_id cst rest

/-- The `while page_url:` loop of `discover_threads`. The Python loop has no
fuel; termination there rests on the strictly-increasing-offset walk hitting
the end of the forum. The model adds an explicit fuel argument; every claim
is stated with enough fuel that the fuel-exhaustion branch is never taken.
Returns the accumulated thread list along with the number of listing pages
rendered. -/
def discover_aux (render : QUrl → Option Html) (forum_id : Option String) :
    Nat → QUrl → List (QUrl × String) → Nat → List (QUrl × String) × Nat
  | 0, _, acc, r => (acc, r)
  | Nat.succ fuel, page_url, acc, r =>
    match render page_url with
    | none => (acc, r + 1)
    | some html =>
      let col := collect_threads html.anchors acc false
      match find_next forum_id (current_st page_url) html.anchors with
      | none => (col.1, r + 1)
      | some nu => discover_aux render forum_id fuel nu col.1 (r + 1)

def discover_threads (render : QUrl → Option Html) (fuel : Nat)
    (section_url : QUrl) : List (QUrl × String) × Nat :=
  discover_aux render (get_forum_id section_url) fuel section_url [] 0

/-! ### Thread pagination discovery (`ForumScraper.discover_thread_pages`) -/

/-- The anchor loop of `discover_thread_pages`: `pages[st] = href` for every
link sharing the thread id and carrying an `st` parameter, starting from
`pages = {0: thread_url}`. -/
def build_pages (tid : Option String) : List Anchor → List (Int × QUrl) →
    List (Int × QUrl)
  | [], m => m
  | a :: rest, m =>
    match normalize_url a.href with
    | none => build_pages tid rest m
    | some href =>
      if getParam href "t" = tid then
        match st_of href with
        | some st => build_pages tid rest (aupdate m st href)
        | none => build_pages tid rest m
      else build_pages tid rest m

/-- The order used by `sorted(pages.items(), key=lambda x: x[0])`. -/
def leOff (p q : Int × QUrl) : Prop := p.1 ≤ q.1

instance : DecidableRel leOff := fun p q => Int.decLe p.1 q.1

instance : IsTotal (Int × QUrl) leOff := ⟨fun a b => Int.le_total a.1 b.1⟩

instance : IsTrans (Int × QUrl) leOff := ⟨fun _ _ _ h h' => le_trans h h'⟩

def discover_thread_pages (thread_url : QUrl) (html : Html) :
    List (Int × QUrl) :=
  List.insertionSort leOff
    (build_pages (get_thread_id thread_url) html.anchors [(0, thread_url)])

/-! ### Saving threads and the per-section main loop
(`ForumScraper.save_thread` / `ForumScraper.run`) -/

/-- `pg_num = (st_val // 30) + 1 if st_val > 0 else 1` from `save_thread`.
`Int.fdiv` is Python's floor division `//`. -/
def page_num_of_offset (st : Int) : Int :=
  if 0 < st then st.fdiv 30 + 1 else 1

/-- An output path of the scraper. `flat` is `thread_filepath` (a single-page
thread), `page` is `page_filepath` (one numbered file inside a per-thread
directory). Directory/file-name sanitization (`safe_filename`) is outside the
verified core; a path is identified by the data it is built from. -/
inductive FPath
  | flat (sectionDir : String) (tid : Option String) (title : String)
  | page (sectionDir : String) (tid : Option String) (title : String) (pageNum : Int)
deriving DecidableEq

/-- The on-disk state: path to size of the file's contents
(`os.path.getsize`); absent key = `os.path.exists` false. -/
def fsGet (fs : List (FPath × Nat)) (p : FPath) : Option Nat :=
  alookup fs p

def fsWrite (fs : List (FPath × Nat)) (p : FPath) (size : Nat) :
    List (FPath × Nat) :=
  aupdate fs p size

/-- `os.path.exists(fpath) and os.path.getsize(fpath) > 200`. -/
def fsBig (fs : List (FPath × Nat)) (p : FPath) : Bool :=
  match fsGet fs p with
  | some n => decide (200 < n)
  | none => false

/-- The per-section ledger record created by `section_state`:
`threads_found` (stored flattened as `[url, title, url, title, ...]` in the
JSON state file, reconstructed by `zip(flat[::2], flat[1::2])`; the model
keeps the pairs, see `flat_threads`/`unflat_threads`), `threads_done`, and
`thread_pages_done`. -/
structure SectionState where
  threads_found : List (QUrl × String)
  threads_done : List QUrl
  thread_pages_done : List QUrl
deriving DecidableEq

/-- Accumulator of the `for st_val, pg_url in thread_pages:` loop of
`save_thread`, extended with traces of the fetches performed (`fetch_page`
calls) and of the files written. -/
structure PagesAcc where
  fs : List (FPath × Nat)
  pages_done : List QUrl
  saved : Nat
  fetched : List QUrl
  wrote : List FPath
deriving DecidableEq

/-- `fpath = page_filepath(section_dir, tid, pg_num, title)` for the page at
offset `st` of a multi-page thread. -/
def page_path (sd : String) (tid : Option String) (tt : String) (st : Int) :
    FPath :=
  FPath.page sd tid tt (page_num_of_offset st)

/-- The multi-page loop of `save_thread`: for each discovered page, skip it
when its file already exists with more than 200 bytes (appending its URL to
the completed-page list if absent), otherwise render it (the offset-0 page
reuses the HTML already fetched for the thread) and write it. -/
def save_pages (render : QUrl → Option Html) (html : Html) (sd : String)
    (tid : Option String) (tt : String) :
    List (Int × QUrl) → PagesAcc → PagesAcc
  | [], acc => acc
  | (st, pg) :: rest, acc =>
    if fsBig acc.fs (page_path sd tid tt st) then
      save_pages render html sd tid tt rest
        { acc with
          pages_done :=
            if pg ∈ acc.pages_done then acc.pages_done else acc.pages_done ++ [pg],
          saved := acc.saved + 1 }
    else if st = 0 then
      save_pages render html sd tid tt rest
        { acc with
          fs := fsWrite acc.fs (page_path sd tid tt st) html.size,
          pages_done := acc.pages_done ++ [pg],
          saved := acc.saved + 1,
          wrote := acc.wrote ++ [page_path sd tid tt st] }
    else
      match render pg with
      | none => save_pages render html sd tid tt rest
          { acc with fetched := acc.fetched ++ [pg] }
      | some h => save_pages render html sd tid tt rest
          { acc with
            fs := fsWrite acc.fs (page_path sd tid tt st) h.size,
            pages_done := acc.pages_done ++ [pg],
            saved := acc.saved + 1,
            fetched := acc.fetched ++ [pg],
            wrote := acc.wrote ++ [page_path sd tid tt st] }

/-- Result of `save_thread`: the new filesystem, the updated section state,
the returned page count, and the fetch/write traces. -/
structure SaveOut where
  fs : List (FPath × Nat)
  ss : SectionState
  saved : Nat
  fetched : List QUrl
  wrote : List FPath
deriving DecidableEq

/-- `ForumScraper.save_thread`: fetch the thread's first page, discover its
pagination; a single-page thread is written unconditionally as one flat file,
a multi-page thread goes through `save_pages`. -/
def save_thread (render : QUrl → Option Html) (fs₀ : List (FPath × Nat))
    (sd : String) (thread_url : QUrl) (thread_title : String)
    (ss₀ : SectionState) : SaveOut :=
  let tid := get_thread_id thread_url
  match render thread_url with
  | none => ⟨fs₀, ss₀, 0, [thread_url], []⟩
  | some html =>
    let tp := discover_thread_pages thread_url html
    if tp.length ≤ 1 then
      let fpath := FPath.flat sd tid thread_title
      ⟨fsWrite fs₀ fpath html.size,
       { ss₀ with thread_pages_done := ss₀.thread_pages_done ++ [thread_url] },
       1, [thread_url], [fpath]⟩
    else
      let acc := save_pages render html sd tid thread_title tp
        ⟨fs₀, ss₀.thread_pages_done, 0, [thread_url], []⟩
      ⟨acc.fs, { ss₀ with thread_pages_done := acc.pages_done },
       acc.saved, acc.fetched, acc.wrote⟩

/-- Accumulator of the `for t_idx, (t_url, t_title) in enumerate(threads):`
loop of `run`. -/
structure ThreadsAcc where
  fs : List (FPath × Nat)
  ss : SectionState
  processed : List QUrl
  fetched : List QUrl
  wrote : List FPath
deriving DecidableEq

/-- The thread loop of `run`: threads already in `done_set` (the completed
set captured before the loop) are skipped; every processed thread is appended
to `threads_done` after `save_thread` returns. -/
def run_threads (render : QUrl → Option Html) (sd : String)
    (done_set : List QUrl) :
    List (QUrl × String) → ThreadsAcc → ThreadsAcc
  | [], acc => acc
  | (t_url, t_title) :: rest, acc =>
    if t_url ∈ done_set then run_threads render sd done_set rest acc
    else
      let so := save_thread render acc.fs sd t_url t_title acc.ss
      run_threads render sd done_set rest
        ⟨so.fs,
         { so.ss with threads_done := so.ss.threads_done ++ [t_url] },
         acc.processed ++ [t_url],
         acc.fetched ++ so.fetched,
         acc.wrote ++ so.wrote⟩

/-- Result of one section's pass of `run`: filesystem, ledger record, number
of listing pages rendered during discovery, the threads for which
`save_thread` ran, and the thread-page fetch/write traces. -/
structure RunOut where
  fs : List (FPath × Nat)
  ss : SectionState
  listing_renders : Nat
  processed : List QUrl
  fetched : List QUrl
  wrote : List FPath
deriving DecidableEq

/-- One section's iteration of `ForumScraper.run`: a section with a non-empty
`threads_found` uses the cached list, otherwise `discover_threads` runs and
its result is stored; then the thread loop runs against the completed set. -/
def run_section (render : QUrl → Option Html) (fuel : Nat)
    (fs₀ : List (FPath × Nat)) (sd : String) (section_url : QUrl)
    (ss₀ : SectionState) : RunOut :=
  let disc :=
    if ss₀.threads_found.isEmpty then
      let d := discover_threads render fuel section_url
      ({ ss₀ with threads_found := d.1 }, d.2)
    else (ss₀, 0)
  let ss₁ := disc.1
  let acc := run_threads render sd ss₁.threads_done ss₁.threads_found
    ⟨fs₀, ss₁, [], [], []⟩
  ⟨acc.fs, acc.ss, disc.2, acc.processed, acc.fetched, acc.wrote⟩

/-- The serialization of `threads_found` into the JSON state file:
`flat.extend([u, t])` per discovered thread. -/
def flat_threads : List (QUrl × String) → List (QUrl ⊕ String)
  | [] => []
  | (u, t) :: rest => Sum.inl u :: Sum.inr t :: flat_threads rest

def evens {α : Type} : List α → List α
  | [] => []
  | [a] => [a]
  | a :: _ :: rest => a :: evens rest

def odds {α : Type} : List α → List α
  | [] => []
  | [_] => []
  | _ :: b :: rest => b :: odds rest

/-- `list(zip(ss["threads_found"][::2], ss["threads_found"][1::2]))`: the
reconstruction of the cached thread list performed by `run`. -/
def unflat_threads (flat : List (QUrl ⊕ String)) :
    List ((QUrl ⊕ String) × (QUrl ⊕ String)) :=
  List.zip (evens flat) (odds flat)

/-! ### Image fallback download and embedding
(`ForumScraper._download_image_requests`, `_embed_images_in_html`).
In this pipeline URLs are the literal attribute strings. -/

def IMAGE_MIMES : List String :=
  ["image/png", "image/jpeg", "image/gif", "image/svg+xml",
   "image/webp", "image/x-icon", "image/bmp", "image/avif", "image/tiff"]

def mime_map : List (String × String) :=
  [(".png", "image/png"), (".jpg", "image/jpeg"), (".jpeg", "image/jpeg"),
   (".gif", "image/gif"), (".svg", "image/svg+xml"), (".webp", "image/webp"),
   (".ico", "image/x-icon"), (".bmp", "image/bmp"), (".avif", "image/avif")]

/-- `urlparse(url).path` for an absolute URL: strip the fragment, the query,
then the `scheme://authority` part (the path starts at the first `/` after
the authority). -/
def url_path (url : String) : String :=
  let noFrag := url.toList.takeWhile (fun x => x ≠ '#')
  let noQuery := noFrag.takeWhile (fun x => x ≠ '?')
  match dropAfterSeq "://".toList noQuery with
  | some rest => String.mk (rest.dropWhile (fun x => x ≠ '/'))
  | none => String.mk noQuery

/-- `os.path.splitext(p)[1]`: the extension of the basename, where leading
dots do not start an extension. -/
def splitext_ext (p : String) : String :=
  let r := p.toList.reverse.takeWhile (fun x => x ≠ '/')
  let afterRev := r.takeWhile (fun c => c ≠ '.')
  match r.dropWhile (fun c => c ≠ '.') with
  | [] => ""
  | _ :: beforeRev =>
    if beforeRev.any (fun c => c ≠ '.') then
      String.mk ('.' :: afterRev.reverse)
    else ""

/-- `guess_mime(url, content_type)`: trust an image content type, otherwise
map the URL's extension, defaulting to `image/png`. -/
def guess_mime (url : String) (content_type : String) : String :=
  let ct := strLower (strTrim (strUpToChar ';' content_type))
  if content_type ≠ "" && IMAGE_MIMES.any (fun m => decide (m = ct)) then ct
  else
    let ext := strLower (splitext_ext (url_path url))
    ((mime_map.find? (fun p => decide (p.1 = ext))).map (fun p => p.2)).getD
      "image/png"

def b64_alphabet : List Char :=
  "ABCDEFGHIJKLMNOPQRSTUVWXYZabcdefghijklmnopqrstuvwxyz0123456789+/".toList

def b64c (n : Nat) : Char := b64_alphabet.getD n 'A'

/-- `base64.b64encode` over a byte list (each byte < 256). -/
def b64chars : List Nat → List Char
  | [] => []
  | [a] => [b64c (a / 4 % 64), b64c (a % 4 * 16), '=', '=']
  | [a, b] => [b64c (a / 4 % 64), b64c (a % 4 * 16 + b / 16), b64c (b % 16 * 4), '=']
  | a :: b :: c :: rest =>
    b64c (a / 4 % 64) :: b64c (a % 4 * 16 + b / 16) ::
    b64c (b % 16 * 4 + c / 64) :: b64c (c % 64) :: b64chars rest

def b64encode (data : List Nat) : String := String.mk (b64chars data)

/-- `f"data:{mime};base64,{b64}"`. -/
def data_uri_of (mime : String) (data : List Nat) : String :=
  "data:" ++ mime ++ ";base64," ++ b64encode data

/-- The `ImageCache`: url to (mime, bytes); `put` has dict semantics. -/
def cache_get (cache : List (String × String × List Nat)) (url : String) :
    Option (String × List Nat) :=
  alookup cache url

def cache_put (cache : List (String × String × List Nat))
    (url mime : String) (data : List Nat) :
    List (String × String × List Nat) :=
  aupdate cache url (mime, data)

/-- `ImageCache.get_data_uri`. -/
def get_data_uri (cache : List (String × String × List Nat)) (url : String) :
    Option String :=
  (cache_get cache url).map (fun md => data_uri_of md.1 md.2)

/-- An HTTP response as seen by the `requests` fallback: `ok` is whether
`raise_for_status()` passes, plus the `Content-Type` header and the body. -/
structure HttpResp where
  ok : Bool
  contentType : String
  body : List Nat
deriving DecidableEq

/-- `_download_image_requests`: `None` when the fetch raises (`get = none`),
on a non-success status, on an HTML content type, or on a body shorter than
100 bytes; otherwise the guessed MIME type and the bytes. -/
def download_image_requests (get : String → Option HttpResp) (url : String) :
    Option (String × List Nat) :=
  match get url with
  | none => none
  | some resp =>
    if resp.ok = false then none
    else if strContains (strLower resp.contentType) "text/html" then none
    else if resp.body.length < 100 then none
    else some (guess_mime url resp.contentType, resp.body)

/-- An `<img>` element: its attribute dictionary. -/
structure ImgTag where
  attrs : List (String × String)
deriving DecidableEq

def attr_get (t : ImgTag) (k : String) : Option String :=
  alookup t.attrs k

def attr_set (t : ImgTag) (k v : String) : ImgTag :=
  ⟨aupdate t.attrs k v⟩

def attr_del (t : ImgTag) (k : String) : ImgTag :=
  ⟨t.attrs.filter (fun p => !(decide (p.1 = k)))⟩

def LAZY_SRC_ATTRS : List String :=
  ["src", "data-src", "data-lazy-src", "data-original", "data-url", "data-image"]

def CLEANUP_ATTRS : List String :=
  ["data-src", "data-lazy-src", "data-original", "data-url", "data-image",
   "srcset", "loading"]

/-- The source-attribute priority loop of `_embed_images_in_html`: the first
attribute whose (truthy) value starts with `http` wins. -/
def img_src_candidate (img : ImgTag) : Option String :=
  LAZY_SRC_ATTRS.findSome? (fun a =>
    match attr_get img a with
    | some v => if strStartsWith v "http" then some v else none
    | none => none)

/-- `normalize_url(src, page_url)` applied to an image source string. The
callers only pass values starting with `http`, for which `urljoin` is the
identity; stripping the fragment truncates at the first `#`. -/
def normalize_url_str (url _page_url : String) : Option String :=
  let u := strTrim url
  if u = "" then none
  else if strStartsWith u "#" || strStartsWith u "javascript:" ||
      strStartsWith u "mailto:" || strStartsWith u "tel:" ||
      strStartsWith u "data:" then
    none
  else some (strUpToChar '#' u)

/-- `for attr in (...): if img.get(attr): del img[attr]` — an attribute
present with an empty (falsy) value is kept. -/
def strip_lazy (img : ImgTag) : ImgTag :=
  CLEANUP_ATTRS.foldl
    (fun t a => if (attr_get t a).getD "" ≠ "" then attr_del t a else t) img

/-- One `<img>` iteration of `_embed_images_in_html`: resolve the source,
try the interception cache under the resolved then the raw key, fall back to
`_download_image_requests` (caching a success), and on any resolution rewrite
`src` to a data URI and strip the lazy-load attributes. -/
def embed_one_img (dl : String → Option (String × List Nat))
    (cache : List (String × String × List Nat)) (page_url : String)
    (img : ImgTag) :
    ImgTag × List (String × String × List Nat) :=
  match img_src_candidate img with
  | none => (img, cache)
  | some src =>
    if strStartsWith src "data:" then (img, cache)
    else
      match normalize_url_str src page_url with
      | none => (img, cache)
      | some full_src =>
        let du₀ := get_data_uri cache full_src
        let du₁ := match du₀ with
          | some d => some d
          | none => get_data_uri cache src
        match du₁ with
        | some d => (strip_lazy (attr_set img "src" d), cache)
        | none =>
          match dl full_src with
          | some md =>
            (strip_lazy (attr_set img "src" (data_uri_of md.1 md.2)),
             cache_put cache full_src md.1 md.2)
          | none => (img, cache)

/-! ### The video reference index (`yt_downloader.py`, `VideoIndex`) -/

inductive VStatus
  | pending
  | downloaded
  | unavailable
  | failed
deriving DecidableEq

/-- One entry of `video_index.json`. -/
structure VideoEntry where
  url : String
  title : Option String
  sections : List String
  source_pages : List String
  status : VStatus
  local_file : Option String
deriving DecidableEq

def canonical_yt_url (video_id : String) : String :=
  "https://www.youtube.com/watch?v=" ++ video_id

/-- `VideoIndex.add_video`: create the entry at `pending` on first sight,
then append the section and the source page to their order-preserving unique
lists. -/
def add_video (d : List (String × VideoEntry))
    (video_id sec source_page : String) : List (String × VideoEntry) :=
  let d₁ :=
    if (alookup d video_id).isSome then d
    else d ++ [(video_id,
      ⟨canonical_yt_url video_id, none, [], [], VStatus.pending, none⟩)]
  amodify d₁ video_id (fun e =>
    let e₁ := if sec ∈ e.sections then e
              else { e with sections := e.sections ++ [sec] }
    if source_page ∈ e₁.source_pages then e₁
    else { e₁ with source_pages := e₁.source_pages ++ [source_page] })

/-- `VideoIndex.get_status`: `"pending"` for an unknown id. -/
def get_status (d : List (String × VideoEntry)) (video_id : String) : VStatus :=
  match alookup d video_id with
  | some e => e.status
  | none => VStatus.pending

/-- `VideoIndex.is_done`: status in `("downloaded", "unavailable")`. -/
def is_done (d : List (String × VideoEntry)) (video_id : String) : Bool :=
  let s := get_status d video_id
  s == VStatus.downloaded || s == VStatus.unavailable

/-- `VideoIndex.clear_failed`: every `failed` entry becomes `pending`. -/
def clear_failed (d : List (String × VideoEntry)) :
    List (String × VideoEntry) :=
  d.map (fun p =>
    if p.2.status == VStatus.failed then
      (p.1, { p.2 with status := VStatus.pending })
    else p)

/-! ### Concrete scenarios from the specification's testable properties -/

/-- Section listing URL for the two-page discovery scenario. -/
def c3SecUrl : QUrl := ⟨BASE_DOMAIN, [("f", "77")]⟩

/-- A thread link anchor for thread id `n` with link text `A` ++ `n`. -/
def c3Thread (n : String) : Anchor :=
  ⟨⟨false, ⟨BASE_DOMAIN, [("t", n)]⟩⟩, "A" ++ n⟩

/-- The next-listing-page link: same forum id, offset 30. -/
def c3Next : Anchor := ⟨⟨false, ⟨BASE_DOMAIN, [("f", "77"), ("st", "30")]⟩⟩, "next"⟩

def c3Page2 : QUrl := ⟨BASE_DOMAIN, [("f", "77"), ("st", "30")]⟩

/-- First listing page: 3 thread links and a next-link to offset 30. -/
def c3Html1 : Html := ⟨[c3Thread "1", c3Thread "2", c3Thread "3", c3Next], 1000⟩

/-- Second listing page: 1 new thread, no further next-link. -/
def c3Html2 : Html := ⟨[c3Thread "4"], 1000⟩

def c3render : QUrl → Option Html := fun u =>
  if u = c3SecUrl then some c3Html1
  else if u = c3Page2 then some c3Html2
  else none

/-- Thread URL for the `discover_thread_pages` counterexample. -/
def c9Tu : QUrl := ⟨BASE_DOMAIN, [("t", "9")]⟩

/-- A link back to the same thread carrying `st=0`: it overwrites the
offset-0 entry that initially holds the thread's own URL. -/
def c9Href : QUrl := ⟨BASE_DOMAIN, [("t", "9"), ("st", "0")]⟩

def c9Html : Html := ⟨[⟨⟨false, c9Href⟩, "p"⟩], 500⟩

/-- A thread URL and page used for the `discover_thread_pages` witness. -/
def c9wHref : QUrl := ⟨BASE_DOMAIN, [("t", "9"), ("st", "30")]⟩

def c9wHtml : Html := ⟨[⟨⟨false, c9wHref⟩, "p2"⟩], 500⟩

/-- Single-page thread for the self-healing counterexample. -/
def c7Tu : QUrl := ⟨BASE_DOMAIN, [("t", "7")]⟩

def c7Path : FPath := FPath.flat "S" (some "7") "T"

/-- The thread's expected output file already exists with 5000 bytes. -/
def c7Fs : List (FPath × Nat) := [(c7Path, 5000)]

/-- The rendered thread page has no pagination links: a single-page thread. -/
def c7Html : Html := ⟨[], 300⟩

def c7render : QUrl → Option Html := fun u =>
  if u = c7Tu then some c7Html else none

/-- Multi-page thread for the self-healing witness. -/
def c7wTu : QUrl := ⟨BASE_DOMAIN, [("t", "8")]⟩

def c7wHref : QUrl := ⟨BASE_DOMAIN, [("t", "8"), ("st", "30")]⟩

def c7wHtml : Html := ⟨[⟨⟨false, c7wHref⟩, "p2"⟩], 300⟩

def c7wPath : FPath := FPath.page "S" (some "8") "T" 2

/-- Page 2 of the thread already exists with 500 bytes. -/
def c7wFs : List (FPath × Nat) := [(c7wPath, 500)]

def c7wRender : QUrl → Option Html := fun u =>
  if u = c7wTu then some c7wHtml else none

/-- An image element missed by the Tier-1 cache. -/
def c8Img : ImgTag := ⟨[("src", "http://h/a.png")]⟩

/-- A successful non-HTML response whose body is exactly 100 bytes. -/
def c8Resp : HttpResp := ⟨true, "image/png", List.replicate 100 65⟩

def c8get : String → Option HttpResp := fun u =>
  if u = "http://h/a.png" then some c8Resp else none

/-- A large, successful response that is an HTML document. -/
def c8wResp : HttpResp := ⟨true, "text/html; charset=utf-8", List.replicate 300 66⟩

def c8wGet : String → Option HttpResp := fun u =>
  if u = "http://h/a.png" then some c8wResp else none

/-- Index entries `{A: unavailable, B: failed, C: downloaded}` of the
retry-failed scenario. -/
def c6A : VideoEntry :=
  ⟨canonical_yt_url "A", none, ["S"], ["pA"], VStatus.unavailable, none⟩

def c6B : VideoEntry :=
  ⟨canonical_yt_url "B", none, ["S"], ["pB"], VStatus.failed, none⟩

def c6C : VideoEntry :=
  ⟨canonical_yt_url "C", some "tC", ["S"], ["pC"], VStatus.downloaded,
   some "videos/S/C.mp4"⟩

def c6demo : List (String × VideoEntry) := [("A", c6A), ("B", c6B), ("C", c6C)]

/-! ## Lemmas

### Association lists -/

theorem alookup_aupdate_self {α β : Type} [DecidableEq α]
    (l : List (α × β)) (k : α) (v : β) :
    alookup (aupdate l k v) k = some v := by
  induction l with
  | nil => simp [aupdate, alookup]
  | cons e rest ih =>
    by_cases h : e.1 = k
    · simp [aupdate, h, alookup]
    · simp [aupdate, h, alookup, ih]

theorem alookup_aupdate_ne {α β : Type} [DecidableEq α]
    (l : List (α × β)) (k j : α) (v : β) (h : j ≠ k) :
    alookup (aupdate l k v) j = alookup l j := by
  induction l with
  | nil => simp [aupdate, alookup, Ne.symm h]
  | cons e rest ih =>
    by_cases he : e.1 = k
    · subst he
      simp [aupdate, alookup, Ne.symm h]
    · simp [aupdate, he, alookup, ih]

theorem mem_aupdate {α β : Type} [DecidableEq α]
    {l : List (α × β)} {k : α} {v : β} {p : α × β}
    (hp : p ∈ aupdate l k v) : p ∈ l ∨ p = (k, v) := by
  induction l with
  | nil => simpa [aupdate] using hp
  | cons e rest ih =>
    by_cases h : e.1 = k
    · simp only [aupdate, h, if_pos rfl] at hp
      rcases List.mem_cons.mp hp with h' | h'
      · exact Or.inr h'
      · exact Or.inl (List.mem_cons_of_mem _ h')
    · simp only [aupdate, if_neg h] at hp
      rcases List.mem_cons.mp hp with h' | h'
      · exact Or.inl (h' ▸ List.mem_cons_self _ _)
      · rcases ih h' with h'' | h''
        · exact Or.inl (List.mem_cons_of_mem _ h'')
        · exact Or.inr h''

theorem mem_aupdate_of_mem_ne {α β : Type} [DecidableEq α]
    {l : List (α × β)} {k : α} {v : β} {p : α × β}
    (hp : p ∈ l) (hne : p.1 ≠ k) : p ∈ aupdate l k v := by
  induction l with
  | nil => cases hp
  | cons e rest ih =>
    by_cases h : e.1 = k
    · simp only [aupdate, h, if_pos rfl]
      rcases List.mem_cons.mp hp with h' | h'
      · exact absurd (h' ▸ h) hne
      · exact List.mem_cons_of_mem _ h'
    · simp only [aupdate, if_neg h]
      rcases List.mem_cons.mp hp with h' | h'
      · exact h' ▸ List.mem_cons_self _ _
      · exact List.mem_cons_of_mem _ (ih h')

theorem exists_key_aupdate {α β : Type} [DecidableEq α]
    {l : List (α × β)} {k₀ : α} (k : α) (v : β)
    (h : ∃ w, (k₀, w) ∈ l) : ∃ w, (k₀, w) ∈ aupdate l k v := by
  rcases h with ⟨w, hw⟩
  by_cases hk : k₀ = k
  · subst hk
    induction l with
    | nil => cases hw
    | cons e rest ih =>
      by_cases he : e.1 = k₀
      · exact ⟨v, by simp [aupdate, he]⟩
      · rcases List.mem_cons.mp hw with h' | h'
        · exact absurd (congrArg Prod.fst h').symm he
        · rcases ih h' with ⟨w', hw'⟩
          exact ⟨w', by simp only [aupdate, if_neg he]; exact List.mem_cons_of_mem _ hw'⟩
  · exact ⟨w, mem_aupdate_of_mem_ne hw hk⟩

theorem keys_aupdate_mem {α β : Type} [DecidableEq α]
    {l : List (α × β)} {k j : α} {v : β}
    (h : j ∈ (aupdate l k v).map Prod.fst) :
    j ∈ l.map Prod.fst ∨ j = k := by
  rcases List.mem_map.mp h with ⟨p, hp, hpj⟩
  rcases mem_aupdate hp with h' | h'
  · exact Or.inl (List.mem_map.mpr ⟨p, h', hpj⟩)
  · exact Or.inr (by rw [← hpj, h'])

theorem nodup_keys_aupdate {α β : Type} [DecidableEq α]
    {l : List (α × β)} {k : α} {v : β}
    (h : (l.map Prod.fst).Nodup) :
    ((aupdate l k v).map Prod.fst).Nodup := by
  induction l with
  | nil => simp [aupdate]
  | cons e rest ih =>
    rw [List.map_cons, List.nodup_cons] at h
    obtain ⟨he, hrest⟩ := h
    by_cases hk : e.1 = k
    · subst hk
      simp only [aupdate, eq_self_iff_true, if_true, List.map_cons,
        List.nodup_cons]
      exact ⟨he, hrest⟩
    · simp only [aupdate, if_neg hk, List.map_cons, List.nodup_cons]
      refine ⟨fun hmem => ?_, ih hrest⟩
      rcases keys_aupdate_mem hmem with h' | h'
      · exact he h'
      · exact hk h'

theorem alookup_amodify_self {α β : Type} [DecidableEq α]
    (l : List (α × β)) (k : α) (f : β → β) :
    alookup (amodify l k f) k = (alookup l k).map f := by
  induction l with
  | nil => simp [amodify, alookup]
  | cons e rest ih =>
    by_cases h : e.1 = k
    · simp [amodify, h, alookup]
    · simp [amodify, h, alookup, ih]

theorem alookup_amodify_ne {α β : Type} [DecidableEq α]
    (l : List (α × β)) (k j : α) (f : β → β) (h : j ≠ k) :
    alookup (amodify l k f) j = alookup l j := by
  induction l with
  | nil => simp [amodify]
  | cons e rest ih =>
    by_cases he : e.1 = k
    · subst he
      simp [amodify, alookup, Ne.symm h]
    · simp [amodify, he, alookup, ih]

theorem keys_amodify {α β : Type} [DecidableEq α]
    (l : List (α × β)) (k : α) (f : β → β) :
    (amodify l k f).map Prod.fst = l.map Prod.fst := by
  induction l with
  | nil => simp [amodify]
  | cons e rest ih =>
    by_cases h : e.1 = k
    · simp [amodify, h]
    · simp [amodify, h, ih]

theorem alookup_eq_none_iff {α β : Type} [DecidableEq α]
    {l : List (α × β)} {k : α} :
    alookup l k = none ↔ ∀ p ∈ l, p.1 ≠ k := by
  induction l with
  | nil => simp [alookup]
  | cons e rest ih =>
    by_cases h : e.1 = k
    · simp [alookup, h]
    · simp [alookup, h, ih]

theorem alookup_append_of_none {α β : Type} [DecidableEq α]
    {l : List (α × β)} (m : List (α × β)) {k : α}
    (h : alookup l k = none) :
    alookup (l ++ m) k = alookup m k := by
  induction l with
  | nil => simp
  | cons e rest ih =>
    by_cases he : e.1 = k
    · simp [alookup, he] at h
    · simp only [alookup, he, if_neg he, List.cons_append] at h ⊢
      exact ih h

theorem alookup_append_of_some {α β : Type} [DecidableEq α]
    {l : List (α × β)} (m : List (α × β)) {k : α} {v : β}
    (h : alookup l k = some v) :
    alookup (l ++ m) k = some v := by
  induction l with
  | nil => simp [alookup] at h
  | cons e rest ih =>
    by_cases he : e.1 = k
    · simp only [alookup, if_pos he] at h ⊢
      simpa using h
    · simp only [alookup, if_neg he] at h ⊢
      exact ih h

theorem key_unique {α β : Type} {l : List (α × β)}
    (h : (l.map Prod.fst).Nodup) {k : α} {a b : β}
    (ha : (k, a) ∈ l) (hb : (k, b) ∈ l) : a = b := by
  induction l with
  | nil => cases ha
  | cons e rest ih =>
    rw [List.map_cons, List.nodup_cons] at h
    rcases List.mem_cons.mp ha with ha' | ha' <;>
      rcases List.mem_cons.mp hb with hb' | hb'
    · exact congrArg Prod.snd (ha'.trans hb'.symm)
    · exact absurd (congrArg Prod.fst ha' ▸ List.mem_map.mpr ⟨(k, b), hb', rfl⟩) h.1
    · exact absurd (congrArg Prod.fst hb' ▸ List.mem_map.mpr ⟨(k, a), ha', rfl⟩) h.1
    · exact ih h.2 ha' hb'

theorem pairwise_and_of {α : Type} {R S : α → α → Prop} :
    ∀ {l : List α}, List.Pairwise R l → List.Pairwise S l →
      List.Pairwise (fun a b => R a b ∧ S a b) l
  | [], _, _ => List.Pairwise.nil
  | _ :: _, List.Pairwise.cons hr hR, List.Pairwise.cons hs hS =>
    List.Pairwise.cons (fun b hb => ⟨hr b hb, hs b hb⟩) (pairwise_and_of hR hS)

/-! ### Thread pagination discovery (`discover_thread_pages`) -/

/-- Invariant preservation through the anchor loop of
`discover_thread_pages`. -/
theorem build_pages_inv (tid : Option String) (P : Int × QUrl → Prop) :
    ∀ (l : List Anchor) (m : List (Int × QUrl)),
      (∀ p ∈ m, P p) →
      (∀ a ∈ l, ∀ href st, normalize_url a.href = some href →
        getParam href "t" = tid → st_of href = some st → P (st, href)) →
      ∀ p ∈ build_pages tid l m, P p := by
  intro l
  induction l with
  | nil => intro m hm _ p hp; exact hm p hp
  | cons a rest ih =>
    intro m hm hnew p hp
    have hnew' : ∀ b ∈ rest, ∀ href st, normalize_url b.href = some href →
        getParam href "t" = tid → st_of href = some st → P (st, href) :=
      fun b hb => hnew b (List.mem_cons_of_mem _ hb)
    rcases hnorm : normalize_url a.href with _ | href
    · simp only [build_pages, hnorm] at hp
      exact ih m hm hnew' p hp
    · simp only [build_pages, hnorm] at hp
      by_cases ht : getParam href "t" = tid
      · rw [if_pos ht] at hp
        rcases hst : st_of href with _ | st
        · simp only [hst] at hp
          exact ih m hm hnew' p hp
        · simp only [hst] at hp
          refine ih _ (fun q hq => ?_) hnew' p hp
          rcases mem_aupdate hq with hq' | hq'
          · exact hm q hq'
          · exact hq' ▸ hnew a (List.mem_cons_self _ _) href st hnorm ht hst
      · rw [if_neg ht] at hp
        exact ih m hm hnew' p hp

theorem build_pages_nodup_keys (tid : Option String) :
    ∀ (l : List Anchor) (m : List (Int × QUrl)),
      (m.map Prod.fst).Nodup →
      ((build_pages tid l m).map Prod.fst).Nodup := by
  intro l
  induction l with
  | nil => intro m hm; exact hm
  | cons a rest ih =>
    intro m hm
    rcases hnorm : normalize_url a.href with _ | href
    · simp only [build_pages, hnorm]; exact ih m hm
    · simp only [build_pages, hnorm]
      by_cases ht : getParam href "t" = tid
      · rw [if_pos ht]
        rcases hst : st_of href with _ | st
        · simp only [hst]; exact ih m hm
        · simp only [hst]; exact ih _ (nodup_keys_aupdate hm)
      · rw [if_neg ht]; exact ih m hm

theorem build_pages_key0 (tid : Option String) :
    ∀ (l : List Anchor) (m : List (Int × QUrl)),
      (∃ v, (0, v) ∈ m) →
      ∃ v, (0, v) ∈ build_pages tid l m := by
  intro l
  induction l with
  | nil => intro m hm; exact hm
  | cons a rest ih =>
    intro m hm
    rcases hnorm : normalize_url a.href with _ | href
    · simp only [build_pages, hnorm]; exact ih m hm
    · simp only [build_pages, hnorm]
      by_cases ht : getParam href "t" = tid
      · rw [if_pos ht]
        rcases hst : st_of href with _ | st
        · simp only [hst]; exact ih m hm
        · simp only [hst]; exact ih _ (exists_key_aupdate _ _ hm)
      · rw [if_neg ht]; exact ih m hm

/-- When no link of the document shares the thread id with offset 0, the
initial `(0, thread_url)` entry survives the anchor loop. -/
theorem build_pages_zero_preserved (tid : Option String) (tu : QUrl) :
    ∀ (l : List Anchor) (m : List (Int × QUrl)),
      (0, tu) ∈ m →
      (∀ a ∈ l, ∀ href, normalize_url a.href = some href →
        getParam href "t" = tid → st_of href ≠ some 0) →
      (0, tu) ∈ build_pages tid l m := by
  intro l
  induction l with
  | nil => intro m hm _; exact hm
  | cons a rest ih =>
    intro m hm hz
    have hz' : ∀ b ∈ rest, ∀ href, normalize_url b.href = some href →
        getParam href "t" = tid → st_of href ≠ some 0 :=
      fun b hb => hz b (List.mem_cons_of_mem _ hb)
    rcases hnorm : normalize_url a.href with _ | href
    · simp only [build_pages, hnorm]; exact ih m hm hz'
    · simp only [build_pages, hnorm]
      by_cases ht : getParam href "t" = tid
      · rw [if_pos ht]
        rcases hst : st_of href with _ | st
        · simp only [hst]; exact ih m hm hz'
        · simp only [hst]
          refine ih _ (mem_aupdate_of_mem_ne hm ?_) hz'
          intro h0
          have h0' : st = 0 := by simpa using h0.symm
          exact hz a (List.mem_cons_self _ _) href hnorm ht (h0' ▸ hst)
      · rw [if_neg ht]; exact ih m hm hz'

theorem dtp_sorted (tu : QUrl) (html : Html) :
    List.Sorted leOff (discover_thread_pages tu html) :=
  List.sorted_insertionSort leOff _

theorem dtp_perm (tu : QUrl) (html : Html) :
    List.Perm (discover_thread_pages tu html)
      (build_pages (get_thread_id tu) html.anchors [(0, tu)]) :=
  List.perm_insertionSort leOff _

theorem dtp_inv (tu : QUrl) (html : Html) (P : Int × QUrl → Prop)
    (h0 : P (0, tu))
    (hnew : ∀ a ∈ html.anchors, ∀ href st, normalize_url a.href = some href →
      getParam href "t" = get_thread_id tu → st_of href = some st →
      P (st, href)) :
    ∀ p ∈ discover_thread_pages tu html, P p := by
  intro p hp
  exact build_pages_inv _ P html.anchors [(0, tu)]
    (by intro q hq; rcases List.mem_singleton.mp hq with rfl; exact h0) hnew p
    ((dtp_perm tu html).subset hp)

/-- Every entry of `discover_thread_pages` shares the thread id of the
thread URL itself (the `t` query parameter comparison of the source). -/
theorem dtp_tid (tu : QUrl) (html : Html) :
    ∀ p ∈ discover_thread_pages tu html,
      get_thread_id p.2 = get_thread_id tu := by
  refine dtp_inv tu html (fun p => get_thread_id p.2 = get_thread_id tu) rfl ?_
  intro a _ href st _ ht _
  exact ht

/-- Every entry is either the initial `(0, thread_url)` pair or carries the
offset parsed from its own URL's `st` parameter. -/
theorem dtp_parse (tu : QUrl) (html : Html) :
    ∀ p ∈ discover_thread_pages tu html,
      (p.1 = 0 ∧ p.2 = tu) ∨ st_of p.2 = some p.1 := by
  refine dtp_inv tu html _ (Or.inl ⟨rfl, rfl⟩) ?_
  intro a _ href st _ _ hst
  exact Or.inr hst

theorem dtp_nodup_keys (tu : QUrl) (html : Html) :
    ((discover_thread_pages tu html).map Prod.fst).Nodup := by
  have hb : ((build_pages (get_thread_id tu) html.anchors [(0, tu)]).map
      Prod.fst).Nodup :=
    build_pages_nodup_keys _ _ _ (by simp)
  exact (List.Perm.nodup_iff ((dtp_perm tu html).map Prod.fst)).mpr hb

/-- The returned pages are in strictly increasing offset order. -/
theorem dtp_strict (tu : QUrl) (html : Html) :
    List.Pairwise (fun p q : Int × QUrl => p.1 < q.1)
      (discover_thread_pages tu html) := by
  have hs := dtp_sorted tu html
  have hn : List.Pairwise (fun p q : Int × QUrl => p.1 ≠ q.1)
      (discover_thread_pages tu html) :=
    List.pairwise_map.mp (dtp_nodup_keys tu html)
  exact (pairwise_and_of hs hn).imp
    (fun h => lt_of_le_of_ne h.1 h.2)

theorem dtp_key0 (tu : QUrl) (html : Html) :
    ∃ v, (0, v) ∈ discover_thread_pages tu html := by
  rcases build_pages_key0 (get_thread_id tu) html.anchors [(0, tu)]
      ⟨tu, by simp⟩ with ⟨v, hv⟩
  exact ⟨v, (dtp_perm tu html).mem_iff.mpr hv⟩

theorem dtp_ne_nil (tu : QUrl) (html : Html) :
    discover_thread_pages tu html ≠ [] := by
  rcases dtp_key0 tu html with ⟨v, hv⟩
  exact List.ne_nil_of_mem hv

/-- When no extracted offset is negative, the first returned page has
offset 0. -/
theorem dtp_head_zero (tu : QUrl) (html : Html)
    (h : ∀ p ∈ discover_thread_pages tu html, 0 ≤ p.1) :
    ∃ v, (discover_thread_pages tu html).head? = some (0, v) := by
  rcases dtp_key0 tu html with ⟨v, hv⟩
  rcases hl : discover_thread_pages tu html with _ | ⟨⟨q1, q2⟩, rest⟩
  · rw [hl] at hv; cases hv
  · have hq1 : q1 = 0 := by
      rw [hl] at hv
      rcases List.mem_cons.mp hv with hv' | hv'
      · exact (congrArg Prod.fst hv').symm
      · have hle : q1 ≤ 0 := by
          have hs := dtp_sorted tu html
          rw [hl] at hs
          exact List.rel_of_sorted_cons hs _ hv'
        have hge : (0 : Int) ≤ q1 :=
          h (q1, q2) (by rw [hl]; exact List.mem_cons_self _ _)
        exact le_antisymm hle hge
    exact ⟨q2, by rw [hq1]; rfl⟩

/-- When, additionally, no link of the document shares the thread id with
offset 0, the first returned page is the thread's own URL. -/
theorem dtp_head_tu (tu : QUrl) (html : Html)
    (h : ∀ p ∈ discover_thread_pages tu html, 0 ≤ p.1)
    (hz : ∀ a ∈ html.anchors, ∀ href, normalize_url a.href = some href →
      getParam href "t" = get_thread_id tu → st_of href ≠ some 0) :
    (discover_thread_pages tu html).head? = some (0, tu) := by
  rcases dtp_head_zero tu html h with ⟨v, hv⟩
  have htu : (0, tu) ∈ discover_thread_pages tu html :=
    (dtp_perm tu html).mem_iff.mpr
      (build_pages_zero_preserved _ tu html.anchors [(0, tu)] (by simp) hz)
  have hvmem : ((0 : Int), v) ∈ discover_thread_pages tu html := by
    rcases hl : discover_thread_pages tu html with _ | ⟨q, rest⟩
    · rw [hl] at hv
      exact absurd hv (by simp)
    · rw [hl] at hv
      have hq : q = (0, v) := by simpa using hv
      rw [hq]
      exact List.mem_cons_self _ _
  have : v = tu := key_unique (dtp_nodup_keys tu html) hvmem htu
  rw [this] at hv
  exact hv

/-! ### Listing discovery (`discover_threads`) -/

/-- The next-listing-page search takes the first qualifying link in document
order (`List.findSome?`). -/
theorem find_next_eq_findSome (forum_id : Option String) (cst : Int) :
    ∀ l : List Anchor,
      find_next forum_id cst l = l.findSome? (next_candidate forum_id cst)
  | [] => rfl
  | a :: rest => by
    rw [find_next, List.findSome?_cons]
    rcases next_candidate forum_id cst a with _ | u
    · exact find_next_eq_findSome forum_id cst rest
    · rfl

/-! ### The multi-page save loop (`save_pages`) -/

theorem fsBig_fsWrite_ne (fs : List (FPath × Nat)) (p q : FPath) (sz : Nat)
    (h : q ≠ p) : fsBig (fsWrite fs p sz) q = fsBig fs q := by
  unfold fsBig fsGet fsWrite
  rw [alookup_aupdate_ne _ _ _ _ h]

theorem fsBig_fsWrite_mono {fs : List (FPath × Nat)} {p : FPath} {sz : Nat}
    (hp : fsBig fs p = false) :
    ∀ P, fsBig fs P = true → fsBig (fsWrite fs p sz) P = true := by
  intro P h
  by_cases hP : P = p
  · rw [hP] at h
    rw [h] at hp
    cases hp
  · rw [fsBig_fsWrite_ne _ _ _ _ hP]
    exact h

theorem big_false_of_mono {fs fs' : List (FPath × Nat)}
    (hmono : ∀ P, fsBig fs P = true → fsBig fs' P = true) {P : FPath}
    (h : fsBig fs' P = false) : fsBig fs P = false := by
  cases hcb : fsBig fs P
  · rfl
  · rw [hmono P hcb] at h
    cases h

/-- Writes never erase a file that already holds more than 200 bytes: bigness
of a path is monotone through the page loop. -/
theorem save_pages_fs_mono (render : QUrl → Option Html) (html : Html)
    (sd : String) (tid : Option String) (tt : String) :
    ∀ (l : List (Int × QUrl)) (acc : PagesAcc) (P : FPath),
      fsBig acc.fs P = true →
      fsBig (save_pages render html sd tid tt l acc).fs P = true := by
  intro l
  induction l with
  | nil => intro acc P h; exact h
  | cons e rest ih =>
    obtain ⟨st, pg⟩ := e
    intro acc P h
    by_cases hbig : fsBig acc.fs (page_path sd tid tt st) = true
    · simp only [save_pages, if_pos hbig]
      exact ih _ P h
    · have hbig' : fsBig acc.fs (page_path sd tid tt st) = false := by
        simpa using hbig
      simp only [save_pages, if_neg hbig]
      by_cases hst0 : st = 0
      · rw [if_pos hst0]
        exact ih _ P (fsBig_fsWrite_mono hbig' P h)
      · rw [if_neg hst0]
        rcases hr : render pg with _ | hh <;> simp only [hr]
        · exact ih _ P h
        · exact ih _ P (fsBig_fsWrite_mono hbig' P h)

/-- Every file written by the page loop was not already big when the loop
started. -/
theorem save_pages_wrote (render : QUrl → Option Html) (html : Html)
    (sd : String) (tid : Option String) (tt : String) :
    ∀ (l : List (Int × QUrl)) (acc : PagesAcc), ∃ Δw,
      (save_pages render html sd tid tt l acc).wrote = acc.wrote ++ Δw ∧
      ∀ P ∈ Δw, fsBig acc.fs P = false := by
  intro l
  induction l with
  | nil => intro acc; exact ⟨[], by simp [save_pages], by simp⟩
  | cons e rest ih =>
    obtain ⟨st, pg⟩ := e
    intro acc
    by_cases hbig : fsBig acc.fs (page_path sd tid tt st) = true
    · simp only [save_pages, if_pos hbig]
      obtain ⟨Δw, he, hp⟩ := ih _
      exact ⟨Δw, he, hp⟩
    · have hbig' : fsBig acc.fs (page_path sd tid tt st) = false := by
        simpa using hbig
      simp only [save_pages, if_neg hbig]
      by_cases hst0 : st = 0
      · rw [if_pos hst0]
        obtain ⟨Δw, he, hp⟩ := ih _
        refine ⟨page_path sd tid tt st :: Δw, by rw [he]; simp, ?_⟩
        intro P hP
        rcases List.mem_cons.mp hP with hP' | hP'
        · exact hP' ▸ hbig'
        · exact big_false_of_mono (fsBig_fsWrite_mono hbig') (hp P hP')
      · rw [if_neg hst0]
        rcases hr : render pg with _ | hh <;> simp only [hr]
        · obtain ⟨Δw, he, hp⟩ := ih _
          exact ⟨Δw, he, hp⟩
        · obtain ⟨Δw, he, hp⟩ := ih _
          refine ⟨page_path sd tid tt st :: Δw, by rw [he]; simp, ?_⟩
          intro P hP
          rcases List.mem_cons.mp hP with hP' | hP'
          · exact hP' ▸ hbig'
          · exact big_false_of_mono (fsBig_fsWrite_mono hbig') (hp P hP')

/-- Every page fetch issued by the loop is for a non-zero offset page whose
file was not already big when the loop started. -/
theorem save_pages_fetched (render : QUrl → Option Html) (html : Html)
    (sd : String) (tid : Option String) (tt : String) :
    ∀ (l : List (Int × QUrl)) (acc : PagesAcc), ∃ Δf,
      (save_pages render html sd tid tt l acc).fetched = acc.fetched ++ Δf ∧
      ∀ u ∈ Δf, ∃ st, (st, u) ∈ l ∧ st ≠ 0 ∧
        fsBig acc.fs (page_path sd tid tt st) = false := by
  intro l
  induction l with
  | nil => intro acc; exact ⟨[], by simp [save_pages], by simp⟩
  | cons e rest ih =>
    obtain ⟨st, pg⟩ := e
    intro acc
    by_cases hbig : fsBig acc.fs (page_path sd tid tt st) = true
    · simp only [save_pages, if_pos hbig]
      obtain ⟨Δf, he, hp⟩ := ih _
      refine ⟨Δf, he, ?_⟩
      intro u hu
      obtain ⟨st', hmem, hne, hfb⟩ := hp u hu
      exact ⟨st', List.mem_cons_of_mem _ hmem, hne, hfb⟩
    · have hbig' : fsBig acc.fs (page_path sd tid tt st) = false := by
        simpa using hbig
      simp only [save_pages, if_neg hbig]
      by_cases hst0 : st = 0
      · rw [if_pos hst0]
        obtain ⟨Δf, he, hp⟩ := ih _
        refine ⟨Δf, he, ?_⟩
        intro u hu
        obtain ⟨st', hmem, hne, hfb⟩ := hp u hu
        exact ⟨st', List.mem_cons_of_mem _ hmem, hne,
          big_false_of_mono (fsBig_fsWrite_mono hbig') hfb⟩
      · rw [if_neg hst0]
        rcases hr : render pg with _ | hh <;> simp only [hr]
        · obtain ⟨Δf, he, hp⟩ := ih _
          refine ⟨pg :: Δf, by rw [he]; simp, ?_⟩
          intro u hu
          rcases List.mem_cons.mp hu with hu' | hu'
          · exact ⟨st, by rw [hu']; exact List.mem_cons_self _ _, hst0, hbig'⟩
          · obtain ⟨st', hmem, hne, hfb⟩ := hp u hu'
            exact ⟨st', List.mem_cons_of_mem _ hmem, hne, hfb⟩
        · obtain ⟨Δf, he, hp⟩ := ih _
          refine ⟨pg :: Δf, by rw [he]; simp, ?_⟩
          intro u hu
          rcases List.mem_cons.mp hu with hu' | hu'
          · exact ⟨st, by rw [hu']; exact List.mem_cons_self _ _, hst0, hbig'⟩
          · obtain ⟨st', hmem, hne, hfb⟩ := hp u hu'
            exact ⟨st', List.mem_cons_of_mem _ hmem, hne,
              big_false_of_mono (fsBig_fsWrite_mono hbig') hfb⟩

/-- The completed-page list only grows, and every appended URL is a page of
the processed list. -/
theorem save_pages_pages (render : QUrl → Option Html) (html : Html)
    (sd : String) (tid : Option String) (tt : String) :
    ∀ (l : List (Int × QUrl)) (acc : PagesAcc), ∃ Δp,
      (save_pages render html sd tid tt l acc).pages_done =
        acc.pages_done ++ Δp ∧
      ∀ u ∈ Δp, ∃ st, (st, u) ∈ l := by
  intro l
  induction l with
  | nil => intro acc; exact ⟨[], by simp [save_pages], by simp⟩
  | cons e rest ih =>
    obtain ⟨st, pg⟩ := e
    intro acc
    by_cases hbig : fsBig acc.fs (page_path sd tid tt st) = true
    · simp only [save_pages, if_pos hbig]
      by_cases hin : pg ∈ acc.pages_done
      · rw [if_pos hin]
        obtain ⟨Δp, he, hp⟩ := ih _
        refine ⟨Δp, he, ?_⟩
        intro u hu
        obtain ⟨st', hmem⟩ := hp u hu
        exact ⟨st', List.mem_cons_of_mem _ hmem⟩
      · rw [if_neg hin]
        obtain ⟨Δp, he, hp⟩ := ih _
        refine ⟨pg :: Δp, by rw [he]; simp, ?_⟩
        intro u hu
        rcases List.mem_cons.mp hu with hu' | hu'
        · exact ⟨st, hu' ▸ List.mem_cons_self _ _⟩
        · obtain ⟨st', hmem⟩ := hp u hu'
          exact ⟨st', List.mem_cons_of_mem _ hmem⟩
    · simp only [save_pages, if_neg hbig]
      by_cases hst0 : st = 0
      · rw [if_pos hst0]
        obtain ⟨Δp, he, hp⟩ := ih _
        refine ⟨pg :: Δp, by rw [he]; simp, ?_⟩
        intro u hu
        rcases List.mem_cons.mp hu with hu' | hu'
        · exact ⟨st, hu' ▸ List.mem_cons_self _ _⟩
        · obtain ⟨st', hmem⟩ := hp u hu'
          exact ⟨st', List.mem_cons_of_mem _ hmem⟩
      · rw [if_neg hst0]
        rcases hr : render pg with _ | hh <;> simp only [hr]
        · obtain ⟨Δp, he, hp⟩ := ih _
          refine ⟨Δp, he, ?_⟩
          intro u hu
          obtain ⟨st', hmem⟩ := hp u hu
          exact ⟨st', List.mem_cons_of_mem _ hmem⟩
        · obtain ⟨Δp, he, hp⟩ := ih _
          refine ⟨pg :: Δp, by rw [he]; simp, ?_⟩
          intro u hu
          rcases List.mem_cons.mp hu with hu' | hu'
          · exact ⟨st, hu' ▸ List.mem_cons_self _ _⟩
          · obtain ⟨st', hmem⟩ := hp u hu'
            exact ⟨st', List.mem_cons_of_mem _ hmem⟩

theorem save_pages_pages_mono (render : QUrl → Option Html) (html : Html)
    (sd : String) (tid : Option String) (tt : String)
    (l : List (Int × QUrl)) (acc : PagesAcc) :
    ∀ u ∈ acc.pages_done,
      u ∈ (save_pages render html sd tid tt l acc).pages_done := by
  obtain ⟨Δp, he, _⟩ := save_pages_pages render html sd tid tt l acc
  intro u hu
  rw [he]
  exact List.mem_append_left _ hu

/-- A page whose file is already big when the loop starts ends up recorded in
the completed-page list. -/
theorem save_pages_big_done (render : QUrl → Option Html) (html : Html)
    (sd : String) (tid : Option String) (tt : String) :
    ∀ (l : List (Int × QUrl)) (acc : PagesAcc) (st : Int) (pg : QUrl),
      (st, pg) ∈ l →
      fsBig acc.fs (page_path sd tid tt st) = true →
      pg ∈ (save_pages render html sd tid tt l acc).pages_done := by
  intro l
  induction l with
  | nil => intro acc st pg h _; cases h
  | cons e rest ih =>
    obtain ⟨st₀, pg₀⟩ := e
    intro acc st pg hmem hbig
    rcases List.mem_cons.mp hmem with hh | hh
    · injection hh with h1 h2
      subst h1
      subst h2
      simp only [save_pages, if_pos hbig]
      refine save_pages_pages_mono render html sd tid tt rest _ pg ?_
      by_cases hin : pg ∈ acc.pages_done
      · rw [if_pos hin]; exact hin
      · rw [if_neg hin]; exact List.mem_append_right _ (List.mem_singleton.mpr rfl)
    · by_cases hbig₀ : fsBig acc.fs (page_path sd tid tt st₀) = true
      · simp only [save_pages, if_pos hbig₀]
        exact ih _ st pg hh hbig
      · have hbig₀' : fsBig acc.fs (page_path sd tid tt st₀) = false := by
          simpa using hbig₀
        simp only [save_pages, if_neg hbig₀]
        by_cases hst0 : st₀ = 0
        · rw [if_pos hst0]
          exact ih _ st pg hh (fsBig_fsWrite_mono hbig₀' _ hbig)
        · rw [if_neg hst0]
          rcases hr : render pg₀ with _ | hh2 <;> simp only [hr]
          · exact ih _ st pg hh hbig
          · exact ih _ st pg hh (fsBig_fsWrite_mono hbig₀' _ hbig)

/-! ### `save_thread` and the thread loop of `run` -/

/-- `save_thread` never touches `threads_found` or `threads_done`, and only
appends to `thread_pages_done` URLs sharing the saved thread's id. -/
theorem save_thread_spec (render : QUrl → Option Html)
    (fs₀ : List (FPath × Nat)) (sd : String) (tu : QUrl) (tt : String)
    (ss₀ : SectionState) :
    (save_thread render fs₀ sd tu tt ss₀).ss.threads_found = ss₀.threads_found ∧
    (save_thread render fs₀ sd tu tt ss₀).ss.threads_done = ss₀.threads_done ∧
    ∃ Δ, (save_thread render fs₀ sd tu tt ss₀).ss.thread_pages_done =
        ss₀.thread_pages_done ++ Δ ∧
      ∀ p ∈ Δ, get_thread_id p = get_thread_id tu := by
  rcases hr : render tu with _ | html
  · refine ⟨?_, ?_, ⟨[], ?_, ?_⟩⟩ <;> simp [save_thread, hr]
  · simp only [save_thread, hr]
    by_cases hlen : (discover_thread_pages tu html).length ≤ 1
    · rw [if_pos hlen]
      refine ⟨rfl, rfl, [tu], rfl, ?_⟩
      intro p hp
      have hpt : p = tu := List.mem_singleton.mp hp
      rw [hpt]
    · rw [if_neg hlen]
      obtain ⟨Δp, he, hp⟩ := save_pages_pages render html sd (get_thread_id tu)
        tt (discover_thread_pages tu html)
        ⟨fs₀, ss₀.thread_pages_done, 0, [tu], []⟩
      refine ⟨rfl, rfl, Δp, he, ?_⟩
      intro p hp'
      obtain ⟨st, hmem⟩ := hp p hp'
      exact dtp_tid tu html (st, p) hmem

/-- The thread loop preserves `threads_found`, only appends to the two
completed lists, and every appended thread URL (resp. page URL's thread id)
comes from the iterated thread list. -/
theorem run_threads_spec (render : QUrl → Option Html) (sd : String)
    (ds : List QUrl) :
    ∀ (l : List (QUrl × String)) (acc : ThreadsAcc),
      (run_threads render sd ds l acc).ss.threads_found = acc.ss.threads_found ∧
      (∃ Δd, (run_threads render sd ds l acc).ss.threads_done =
          acc.ss.threads_done ++ Δd ∧ ∀ u ∈ Δd, ∃ t, (u, t) ∈ l) ∧
      (∃ Δp, (run_threads render sd ds l acc).ss.thread_pages_done =
          acc.ss.thread_pages_done ++ Δp ∧
        ∀ p ∈ Δp, ∃ u t, (u, t) ∈ l ∧ get_thread_id p = get_thread_id u) := by
  intro l
  induction l with
  | nil =>
    intro acc
    exact ⟨rfl, ⟨[], by simp [run_threads], by simp⟩,
      ⟨[], by simp [run_threads], by simp⟩⟩
  | cons e rest ih =>
    obtain ⟨tu, tt⟩ := e
    intro acc
    by_cases hmem : tu ∈ ds
    · simp only [run_threads, if_pos hmem]
      obtain ⟨h1, ⟨Δd, hd, hdp⟩, ⟨Δp, hpp, hppp⟩⟩ := ih acc
      refine ⟨h1, ⟨Δd, hd, ?_⟩, ⟨Δp, hpp, ?_⟩⟩
      · intro u hu
        obtain ⟨t, ht⟩ := hdp u hu
        exact ⟨t, List.mem_cons_of_mem _ ht⟩
      · intro p hp
        obtain ⟨u, t, hm, hid⟩ := hppp p hp
        exact ⟨u, t, List.mem_cons_of_mem _ hm, hid⟩
    · simp only [run_threads, if_neg hmem]
      obtain ⟨hs1, hs2, ⟨Δs, hsp, hspp⟩⟩ :=
        save_thread_spec render acc.fs sd tu tt acc.ss
      obtain ⟨h1, ⟨Δd, hd, hdp⟩, ⟨Δp, hpp, hppp⟩⟩ :=
        ih ⟨(save_thread render acc.fs sd tu tt acc.ss).fs,
          { (save_thread render acc.fs sd tu tt acc.ss).ss with
            threads_done :=
              (save_thread render acc.fs sd tu tt acc.ss).ss.threads_done ++ [tu] },
          acc.processed ++ [tu],
          acc.fetched ++ (save_thread render acc.fs sd tu tt acc.ss).fetched,
          acc.wrote ++ (save_thread render acc.fs sd tu tt acc.ss).wrote⟩
      refine ⟨by rw [h1]; exact hs1, ⟨tu :: Δd, ?_, ?_⟩, ⟨Δs ++ Δp, ?_, ?_⟩⟩
      · rw [hd]
        show ((save_thread render acc.fs sd tu tt acc.ss).ss.threads_done
          ++ [tu]) ++ Δd = acc.ss.threads_done ++ tu :: Δd
        rw [hs2, List.append_assoc]
        rfl
      · intro u hu
        rcases List.mem_cons.mp hu with hu' | hu'
        · exact ⟨tt, by rw [hu']; exact List.mem_cons_self _ _⟩
        · obtain ⟨t, ht⟩ := hdp u hu'
          exact ⟨t, List.mem_cons_of_mem _ ht⟩
      · rw [hpp]
        show (save_thread render acc.fs sd tu tt acc.ss).ss.thread_pages_done
          ++ Δp = acc.ss.thread_pages_done ++ (Δs ++ Δp)
        rw [hsp, List.append_assoc]
      · intro p hp
        rcases List.mem_append.mp hp with hp' | hp'
        · exact ⟨tu, tt, List.mem_cons_self _ _, hspp p hp'⟩
        · obtain ⟨u, t, hm, hid⟩ := hppp p hp'
          exact ⟨u, t, List.mem_cons_of_mem _ hm, hid⟩

/-- The processed threads are exactly those of the iterated list absent from
the completed set, in order. -/
theorem run_threads_processed (render : QUrl → Option Html) (sd : String)
    (ds : List QUrl) :
    ∀ (l : List (QUrl × String)) (acc : ThreadsAcc),
      (run_threads render sd ds l acc).processed =
        acc.processed ++ (l.map Prod.fst).filter (fun u => !(decide (u ∈ ds))) := by
  intro l
  induction l with
  | nil => intro acc; simp [run_threads]
  | cons e rest ih =>
    obtain ⟨tu, tt⟩ := e
    intro acc
    by_cases hmem : tu ∈ ds
    · simp only [run_threads, if_pos hmem]
      rw [ih acc]
      simp [List.filter_cons, hmem]
    · simp only [run_threads, if_neg hmem]
      rw [ih _]
      simp [List.filter_cons, hmem]

/-- A thread list fully inside the completed set is skipped wholesale: the
loop is the identity on its accumulator. -/
theorem run_threads_skip_all (render : QUrl → Option Html) (sd : String)
    (ds : List QUrl) :
    ∀ (l : List (QUrl × String)) (acc : ThreadsAcc),
      (∀ p ∈ l, p.1 ∈ ds) → run_threads render sd ds l acc = acc := by
  intro l
  induction l with
  | nil => intro acc _; rfl
  | cons e rest ih =>
    obtain ⟨tu, tt⟩ := e
    intro acc h
    have hmem : tu ∈ ds := h (tu, tt) (List.mem_cons_self _ _)
    simp only [run_threads, if_pos hmem]
    exact ih acc (fun p hp => h p (List.mem_cons_of_mem _ hp))

/-- After the loop, every iterated thread URL is in the completed set. -/
theorem run_threads_covers (render : QUrl → Option Html) (sd : String)
    (ds : List QUrl) :
    ∀ (l : List (QUrl × String)) (acc : ThreadsAcc),
      (∀ x ∈ ds, x ∈ acc.ss.threads_done) →
      ∀ p ∈ l, p.1 ∈ (run_threads render sd ds l acc).ss.threads_done := by
  intro l
  induction l with
  | nil => intro acc _ p hp; cases hp
  | cons e rest ih =>
    obtain ⟨tu, tt⟩ := e
    intro acc hds p hp
    by_cases hmem : tu ∈ ds
    · simp only [run_threads, if_pos hmem]
      rcases List.mem_cons.mp hp with hp' | hp'
      · obtain ⟨_, ⟨Δd, hd, _⟩, _⟩ := run_threads_spec render sd ds rest acc
        rw [hd]
        refine List.mem_append_left _ ?_
        have hfst : p.1 = tu := congrArg Prod.fst hp'
        rw [hfst]
        exact hds tu hmem
      · exact ih acc hds p hp'
    · simp only [run_threads, if_neg hmem]
      obtain ⟨hs1, hs2, _⟩ := save_thread_spec render acc.fs sd tu tt acc.ss
      have hds' : ∀ x ∈ ds,
          x ∈ ((save_thread render acc.fs sd tu tt acc.ss).ss.threads_done
            ++ [tu]) := by
        intro x hx
        rw [hs2]
        exact List.mem_append_left _ (hds x hx)
      rcases List.mem_cons.mp hp with hp' | hp'
      · obtain ⟨_, ⟨Δd, hd, _⟩, _⟩ := run_threads_spec render sd ds rest
          ⟨(save_thread render acc.fs sd tu tt acc.ss).fs,
           { (save_thread render acc.fs sd tu tt acc.ss).ss with
             threads_done :=
               (save_thread render acc.fs sd tu tt acc.ss).ss.threads_done ++ [tu] },
           acc.processed ++ [tu],
           acc.fetched ++ (save_thread render acc.fs sd tu tt acc.ss).fetched,
           acc.wrote ++ (save_thread render acc.fs sd tu tt acc.ss).wrote⟩
        rw [hd]
        refine List.mem_append_left _ ?_
        have hfst : p.1 = tu := congrArg Prod.fst hp'
        rw [hfst]
        exact List.mem_append_right _ (List.mem_singleton.mpr rfl)
      · exact ih _ hds' p hp'

/-! ### The per-section pass (`run_section`) -/

/-- A section with a non-empty cached thread list skips discovery. -/
theorem run_section_cached (render : QUrl → Option Html) (fuel : Nat)
    (fs₀ : List (FPath × Nat)) (sd : String) (su : QUrl) (ss₀ : SectionState)
    (h : ss₀.threads_found ≠ []) :
    run_section render fuel fs₀ sd su ss₀ =
      ⟨(run_threads render sd ss₀.threads_done ss₀.threads_found
          ⟨fs₀, ss₀, [], [], []⟩).fs,
       (run_threads render sd ss₀.threads_done ss₀.threads_found
          ⟨fs₀, ss₀, [], [], []⟩).ss,
       0,
       (run_threads render sd ss₀.threads_done ss₀.threads_found
          ⟨fs₀, ss₀, [], [], []⟩).processed,
       (run_threads render sd ss₀.threads_done ss₀.threads_found
          ⟨fs₀, ss₀, [], [], []⟩).fetched,
       (run_threads render sd ss₀.threads_done ss₀.threads_found
          ⟨fs₀, ss₀, [], [], []⟩).wrote⟩ := by
  have hne : ss₀.threads_found.isEmpty = false := by
    cases hl : ss₀.threads_found
    · exact absurd hl h
    · rfl
  simp [run_section, hne]

/-- A section with an empty cached thread list re-runs discovery and stores
its result. -/
theorem run_section_fresh (render : QUrl → Option Html) (fuel : Nat)
    (fs₀ : List (FPath × Nat)) (sd : String) (su : QUrl) (ss₀ : SectionState)
    (h : ss₀.threads_found = []) :
    run_section render fuel fs₀ sd su ss₀ =
      ⟨(run_threads render sd ss₀.threads_done
          (discover_threads render fuel su).1
          ⟨fs₀, { ss₀ with threads_found := (discover_threads render fuel su).1 },
           [], [], []⟩).fs,
       (run_threads render sd ss₀.threads_done
          (discover_threads render fuel su).1
          ⟨fs₀, { ss₀ with threads_found := (discover_threads render fuel su).1 },
           [], [], []⟩).ss,
       (discover_threads render fuel su).2,
       (run_threads render sd ss₀.threads_done
          (discover_threads render fuel su).1
          ⟨fs₀, { ss₀ with threads_found := (discover_threads render fuel su).1 },
           [], [], []⟩).processed,
       (run_threads render sd ss₀.threads_done
          (discover_threads render fuel su).1
          ⟨fs₀, { ss₀ with threads_found := (discover_threads render fuel su).1 },
           [], [], []⟩).fetched,
       (run_threads render sd ss₀.threads_done
          (discover_threads render fuel su).1
          ⟨fs₀, { ss₀ with threads_found := (discover_threads render fuel su).1 },
           [], [], []⟩).wrote⟩ := by
  have hne : ss₀.threads_found.isEmpty = true := by rw [h]; rfl
  simp [run_section, hne]

/-- After a section pass, every discovered thread URL is in the completed
set (processed threads are appended even when saving them failed). -/
theorem run_section_covered (render : QUrl → Option Html) (fuel : Nat)
    (fs₀ : List (FPath × Nat)) (sd : String) (su : QUrl) (ss₀ : SectionState) :
    ∀ p ∈ (run_section render fuel fs₀ sd su ss₀).ss.threads_found,
      p.1 ∈ (run_section render fuel fs₀ sd su ss₀).ss.threads_done := by
  by_cases h : ss₀.threads_found = []
  · rw [run_section_fresh render fuel fs₀ sd su ss₀ h]
    dsimp only
    intro p hp
    obtain ⟨h1, _, _⟩ := run_threads_spec render sd ss₀.threads_done
      (discover_threads render fuel su).1
      ⟨fs₀, { ss₀ with threads_found := (discover_threads render fuel su).1 },
       [], [], []⟩
    rw [h1] at hp
    exact run_threads_covers render sd ss₀.threads_done
      (discover_threads render fuel su).1
      ⟨fs₀, { ss₀ with threads_found := (discover_threads render fuel su).1 },
       [], [], []⟩
      (fun x hx => hx) p hp
  · rw [run_section_cached render fuel fs₀ sd su ss₀ h]
    dsimp only
    intro p hp
    obtain ⟨h1, _, _⟩ := run_threads_spec render sd ss₀.threads_done
      ss₀.threads_found ⟨fs₀, ss₀, [], [], []⟩
    rw [h1] at hp
    exact run_threads_covers render sd ss₀.threads_done ss₀.threads_found
      ⟨fs₀, ss₀, [], [], []⟩ (fun x hx => hx) p hp

/-- A second pass over the state and filesystem left by a first pass is a
no-op: nothing is written, no thread page is fetched, nothing is processed,
and state and filesystem are unchanged; it renders listing pages again only
when the first pass discovered no threads at all. -/
theorem run_section_idem (render : QUrl → Option Html) (fuel : Nat)
    (fs₀ : List (FPath × Nat)) (sd : String) (su : QUrl) (ss₀ : SectionState) :
    (run_section render fuel (run_section render fuel fs₀ sd su ss₀).fs sd su
        (run_section render fuel fs₀ sd su ss₀).ss).wrote = [] ∧
    (run_section render fuel (run_section render fuel fs₀ sd su ss₀).fs sd su
        (run_section render fuel fs₀ sd su ss₀).ss).fetched = [] ∧
    (run_section render fuel (run_section render fuel fs₀ sd su ss₀).fs sd su
        (run_section render fuel fs₀ sd su ss₀).ss).processed = [] ∧
    (run_section render fuel (run_section render fuel fs₀ sd su ss₀).fs sd su
        (run_section render fuel fs₀ sd su ss₀).ss).fs =
      (run_section render fuel fs₀ sd su ss₀).fs ∧
    (run_section render fuel (run_section render fuel fs₀ sd su ss₀).fs sd su
        (run_section render fuel fs₀ sd su ss₀).ss).ss =
      (run_section render fuel fs₀ sd su ss₀).ss ∧
    ((run_section render fuel fs₀ sd su ss₀).ss.threads_found ≠ [] →
      (run_section render fuel (run_section render fuel fs₀ sd su ss₀).fs sd su
          (run_section render fuel fs₀ sd su ss₀).ss).listing_renders = 0) := by
  by_cases h2 : (run_section render fuel fs₀ sd su ss₀).ss.threads_found = []
  · -- the first pass found nothing, so the cached list is empty and the
    -- second pass re-discovers the same empty list
    have hss : ss₀.threads_found = [] := by
      by_contra hne
      rw [run_section_cached render fuel fs₀ sd su ss₀ hne] at h2
      dsimp only at h2
      obtain ⟨h1, _, _⟩ := run_threads_spec render sd ss₀.threads_done
        ss₀.threads_found ⟨fs₀, ss₀, [], [], []⟩
      rw [h1] at h2
      exact hne h2
    have hd1 : (discover_threads render fuel su).1 = [] := by
      rw [run_section_fresh render fuel fs₀ sd su ss₀ hss] at h2
      dsimp only at h2
      obtain ⟨h1, _, _⟩ := run_threads_spec render sd ss₀.threads_done
        (discover_threads render fuel su).1
        ⟨fs₀, { ss₀ with threads_found := (discover_threads render fuel su).1 },
         [], [], []⟩
      rw [h1] at h2
      exact h2
    rw [run_section_fresh render fuel
      (run_section render fuel fs₀ sd su ss₀).fs sd su
      (run_section render fuel fs₀ sd su ss₀).ss h2]
    dsimp only
    rw [hd1]
    refine ⟨rfl, rfl, rfl, rfl, ?_, fun hne => absurd h2 hne⟩
    show ({ (run_section render fuel fs₀ sd su ss₀).ss with
      threads_found := [] } : SectionState) = _
    rw [← h2]
  · -- the cached list is non-empty and fully covered: every thread skips
    have hcov : ∀ p ∈ (run_section render fuel fs₀ sd su ss₀).ss.threads_found,
        p.1 ∈ (run_section render fuel fs₀ sd su ss₀).ss.threads_done :=
      run_section_covered render fuel fs₀ sd su ss₀
    rw [run_section_cached render fuel
      (run_section render fuel fs₀ sd su ss₀).fs sd su
      (run_section render fuel fs₀ sd su ss₀).ss h2]
    dsimp only
    rw [run_threads_skip_all render sd
      (run_section render fuel fs₀ sd su ss₀).ss.threads_done
      (run_section render fuel fs₀ sd su ss₀).ss.threads_found
      ⟨(run_section render fuel fs₀ sd su ss₀).fs,
       (run_section render fuel fs₀ sd su ss₀).ss, [], [], []⟩ hcov]
    exact ⟨rfl, rfl, rfl, rfl, rfl, fun _ => rfl⟩

/-- `zip(flat[::2], flat[1::2])` undoes the `flat.extend([u, t])`
serialization of the discovered-thread list. -/
theorem unflat_flat (l : List (QUrl × String)) :
    unflat_threads (flat_threads l) =
      l.map (fun p => (Sum.inl p.1, Sum.inr p.2)) := by
  induction l with
  | nil => rfl
  | cons p rest ih =>
    obtain ⟨u, t⟩ := p
    simp only [flat_threads, unflat_threads, evens, odds, List.zip_cons_cons,
      List.map_cons] at ih ⊢
    rw [ih]

/-! ## Claims -/

/-- Claim C1: Ledger subset invariant — over a section pass, the
discovered-thread list, the completed-thread list and the completed-page list
only grow; every URL appended to `threads_done` is a URL present in the
section's `threads_found`, and the thread id of every URL appended to
`thread_pages_done` equals the thread id of some discovered thread. -/
theorem claim_C1_ledger_subset (render : QUrl → Option Html) (fuel : Nat)
    (fs₀ : List (FPath × Nat)) (sd : String) (su : QUrl) (ss₀ : SectionState) :
    (∃ Δf, (run_section render fuel fs₀ sd su ss₀).ss.threads_found =
        ss₀.threads_found ++ Δf) ∧
    (∃ Δd, (run_section render fuel fs₀ sd su ss₀).ss.threads_done =
        ss₀.threads_done ++ Δd ∧
      ∀ u ∈ Δd, ∃ t, (u, t) ∈
        (run_section render fuel fs₀ sd su ss₀).ss.threads_found) ∧
    (∃ Δp, (run_section render fuel fs₀ sd su ss₀).ss.thread_pages_done =
        ss₀.thread_pages_done ++ Δp ∧
      ∀ p ∈ Δp, ∃ u t, (u, t) ∈
        (run_section render fuel fs₀ sd su ss₀).ss.threads_found ∧
        get_thread_id p = get_thread_id u) := by
  by_cases h : ss₀.threads_found = []
  · rw [run_section_fresh render fuel fs₀ sd su ss₀ h]
    dsimp only
    obtain ⟨h1, ⟨Δd, hd, hdp⟩, ⟨Δp, hpp, hppp⟩⟩ := run_threads_spec render sd
      ss₀.threads_done (discover_threads render fuel su).1
      ⟨fs₀, { ss₀ with threads_found := (discover_threads render fuel su).1 },
       [], [], []⟩
    refine ⟨⟨(discover_threads render fuel su).1, ?_⟩,
      ⟨Δd, by rw [hd], ?_⟩, ⟨Δp, by rw [hpp], ?_⟩⟩
    · rw [h1, h]
      rfl
    · intro u hu
      obtain ⟨t, ht⟩ := hdp u hu
      refine ⟨t, ?_⟩
      rw [h1]
      exact ht
    · intro p hp
      obtain ⟨u, t, hm, hid⟩ := hppp p hp
      refine ⟨u, t, ?_, hid⟩
      rw [h1]
      exact hm
  · rw [run_section_cached render fuel fs₀ sd su ss₀ h]
    dsimp only
    obtain ⟨h1, ⟨Δd, hd, hdp⟩, ⟨Δp, hpp, hppp⟩⟩ := run_threads_spec render sd
      ss₀.threads_done ss₀.threads_found ⟨fs₀, ss₀, [], [], []⟩
    refine ⟨⟨[], ?_⟩, ⟨Δd, by rw [hd], ?_⟩, ⟨Δp, by rw [hpp], ?_⟩⟩
    · rw [List.append_nil, h1]
    · intro u hu
      obtain ⟨t, ht⟩ := hdp u hu
      refine ⟨t, ?_⟩
      rw [h1]
      exact ht
    · intro p hp
      obtain ⟨u, t, hm, hid⟩ := hppp p hp
      refine ⟨u, t, ?_, hid⟩
      rw [h1]
      exact hm

theorem claim_C1_ledger_subset_witness :
    ∃ Δd, (run_section c3render 10 [] "S" c3SecUrl ⟨[], [], []⟩).ss.threads_done
        = ([] : List QUrl) ++ Δd ∧
      ∀ u ∈ Δd, ∃ t, (u, t) ∈
        (run_section c3render 10 [] "S" c3SecUrl ⟨[], [], []⟩).ss.threads_found :=
  (claim_C1_ledger_subset c3render 10 [] "S" c3SecUrl ⟨[], [], []⟩).2.1

/-- Claim C2: Idempotent re-run — a second section pass over the state and
filesystem left by a first pass writes no page file, fetches no thread page,
leaves the filesystem and the whole section state (in particular
`threads_found`) unchanged, and (when the discovered list is non-empty) skips
re-discovery; with a non-empty cached list the processed threads are exactly
the cached thread URLs absent from the completed set, in order, so resumption
begins from the first such URL; the flatten/zip serialization of the cached
list round-trips. -/
theorem claim_C2_idempotent_rerun (render : QUrl → Option Html) (fuel : Nat)
    (sd : String) (su : QUrl) :
    (∀ (fs₀ : List (FPath × Nat)) (ss₀ : SectionState),
      (run_section render fuel (run_section render fuel fs₀ sd su ss₀).fs sd su
          (run_section render fuel fs₀ sd su ss₀).ss).wrote = [] ∧
      (run_section render fuel (run_section render fuel fs₀ sd su ss₀).fs sd su
          (run_section render fuel fs₀ sd su ss₀).ss).fetched = [] ∧
      (run_section render fuel (run_section render fuel fs₀ sd su ss₀).fs sd su
          (run_section render fuel fs₀ sd su ss₀).ss).fs =
        (run_section render fuel fs₀ sd su ss₀).fs ∧
      (run_section render fuel (run_section render fuel fs₀ sd su ss₀).fs sd su
          (run_section render fuel fs₀ sd su ss₀).ss).ss =
        (run_section render fuel fs₀ sd su ss₀).ss ∧
      ((run_section render fuel fs₀ sd su ss₀).ss.threads_found ≠ [] →
        (run_section render fuel (run_section render fuel fs₀ sd su ss₀).fs sd su
            (run_section render fuel fs₀ sd su ss₀).ss).listing_renders = 0)) ∧
    (∀ (fs : List (FPath × Nat)) (ss : SectionState),
      ss.threads_found ≠ [] →
      (run_section render fuel fs sd su ss).listing_renders = 0 ∧
      (run_section render fuel fs sd su ss).processed =
        (ss.threads_found.map Prod.fst).filter
          (fun u => !(decide (u ∈ ss.threads_done)))) ∧
    (∀ l : List (QUrl × String),
      unflat_threads (flat_threads l) =
        l.map (fun p => (Sum.inl p.1, Sum.inr p.2))) := by
  refine ⟨?_, ?_, unflat_flat⟩
  · intro fs₀ ss₀
    obtain ⟨hw, hf, _, hfs, hss, hlr⟩ := run_section_idem render fuel fs₀ sd su ss₀
    exact ⟨hw, hf, hfs, hss, hlr⟩
  · intro fs ss h
    rw [run_section_cached render fuel fs sd su ss h]
    dsimp only
    refine ⟨rfl, ?_⟩
    rw [run_threads_processed render sd ss.threads_done ss.threads_found
      ⟨fs, ss, [], [], []⟩]
    rfl

theorem claim_C2_idempotent_rerun_witness :
    (run_section c3render 10 [] "S" c3SecUrl ⟨[(c9Tu, "T")], [], []⟩).processed =
      (([(c9Tu, "T")] : List (QUrl × String)).map Prod.fst).filter
        (fun u => !(decide (u ∈ ([] : List QUrl)))) :=
  ((claim_C2_idempotent_rerun c3render 10 "S" c3SecUrl).2.1
    [] ⟨[(c9Tu, "T")], [], []⟩ (by simp)).2

/-- Claim C4: Pagination mapping — the page number used in a multi-page
thread's file name equals ⌊st / 30⌋ + 1 for every pagination offset st ≥ 0;
offset 0 maps to page 1, offset 30 to page 2, and offset 59 to page 2. -/
theorem claim_C4_pagination_mapping :
    (∀ st : Int, 0 ≤ st → page_num_of_offset st = st.fdiv 30 + 1) ∧
    page_num_of_offset 0 = 1 ∧ page_num_of_offset 30 = 2 ∧
    page_num_of_offset 59 = 2 := by
  refine ⟨?_, by decide, by decide, by decide⟩
  intro st hst
  by_cases h : 0 < st
  · rw [page_num_of_offset, if_pos h]
  · have h0 : st = 0 := le_antisymm (not_lt.mp h) hst
    rw [h0]
    decide

theorem claim_C4_pagination_mapping_witness :
    0 ≤ (60 : Int) ∧ page_num_of_offset 60 = (60 : Int).fdiv 30 + 1 :=
  ⟨by decide, claim_C4_pagination_mapping.1 60 (by decide)⟩

/-- Claim C3: Listing-discovery forward progress — the next listing URL is
the first link in document order whose forum id equals the section's and
whose `st` offset is strictly greater than the current page's offset (0 when
the current URL has none); discovery returns when a render fails, and when no
new thread was found and no next-link exists; on the scenario (3 thread links
plus a next-link to offset 30, then 1 new thread and no next-link) the
discovered list has the 4 threads in encounter order and exactly 2 listing
pages are rendered. -/
theorem claim_C3_listing_discovery :
    (∀ (forum_id : Option String) (cst : Int) (l : List Anchor),
      find_next forum_id cst l = l.findSome? (next_candidate forum_id cst)) ∧
    (∀ (render : QUrl → Option Html) (forum_id : Option String) (fuel : Nat)
        (pu : QUrl) (acc : List (QUrl × String)) (r : Nat),
      render pu = none →
      discover_aux render forum_id (fuel + 1) pu acc r = (acc, r + 1)) ∧
    (∀ (render : QUrl → Option Html) (forum_id : Option String) (fuel : Nat)
        (pu : QUrl) (acc : List (QUrl × String)) (r : Nat) (html : Html),
      render pu = some html →
      (collect_threads html.anchors acc false).2 = false →
      find_next forum_id (current_st pu) html.anchors = none →
      discover_aux render forum_id (fuel + 1) pu acc r =
        ((collect_threads html.anchors acc false).1, r + 1)) ∧
    discover_threads c3render 10 c3SecUrl =
      ([(base_thread_url "1", "A1"), (base_thread_url "2", "A2"),
        (base_thread_url "3", "A3"), (base_thread_url "4", "A4")], 2) := by
  refine ⟨find_next_eq_findSome, ?_, ?_, by decide⟩
  · intro render forum_id fuel pu acc r h
    simp only [discover_aux, h]
  · intro render forum_id fuel pu acc r html h1 _ h3
    simp only [discover_aux, h1, h3]

theorem claim_C3_listing_discovery_witness :
    discover_aux (fun _ => none) none 1 c3SecUrl [] 0 = ([], 1) ∧
    discover_aux (fun _ => some ⟨[], 5⟩) none 1 c3SecUrl [] 0 =
      ((collect_threads (Html.mk [] 5).anchors [] false).1, 1) :=
  ⟨claim_C3_listing_discovery.2.1 (fun _ => none) none 0 c3SecUrl [] 0 rfl,
   claim_C3_listing_discovery.2.2.1 (fun _ => some ⟨[], 5⟩) none 0 c3SecUrl
     [] 0 ⟨[], 5⟩ rfl rfl rfl⟩

/-- Claim C9 (amended): `discover_thread_pages` always returns a non-empty
list in strictly increasing offset order that contains an offset-0 entry;
when no extracted offset is negative, the first element has offset 0, and it
is the thread's own URL provided no link of the document shares the thread id
with offset 0 — such a link overwrites the offset-0 entry (see the
counterexample). -/
theorem claim_C9_thread_pages (tu : QUrl) (html : Html) :
    discover_thread_pages tu html ≠ [] ∧
    List.Pairwise (fun p q : Int × QUrl => p.1 < q.1)
      (discover_thread_pages tu html) ∧
    (∃ v, (0, v) ∈ discover_thread_pages tu html) ∧
    ((∀ p ∈ discover_thread_pages tu html, 0 ≤ p.1) →
      ∃ v, (discover_thread_pages tu html).head? = some (0, v)) ∧
    ((∀ p ∈ discover_thread_pages tu html, 0 ≤ p.1) →
      (∀ a ∈ html.anchors, ∀ href, normalize_url a.href = some href →
        getParam href "t" = get_thread_id tu → st_of href ≠ some 0) →
      (discover_thread_pages tu html).head? = some (0, tu)) :=
  ⟨dtp_ne_nil tu html, dtp_strict tu html, dtp_key0 tu html,
   dtp_head_zero tu html, dtp_head_tu tu html⟩

theorem claim_C9_thread_pages_counterexample :
    (discover_thread_pages c9Tu c9Html).head? = some (0, c9Href) ∧
    c9Href ≠ c9Tu := by
  exact ⟨by decide, by decide⟩

theorem claim_C9_thread_pages_witness :
    (discover_thread_pages c9Tu c9wHtml).head? = some (0, c9Tu) := by
  refine (claim_C9_thread_pages c9Tu c9wHtml).2.2.2.2 (by decide) ?_
  intro a ha href hn _ hst0
  have ha' : a = ⟨⟨false, c9wHref⟩, "p2"⟩ := by
    have he : c9wHtml.anchors = [⟨⟨false, c9wHref⟩, "p2"⟩] := rfl
    rw [he] at ha
    exact List.mem_singleton.mp ha
  rw [ha'] at hn
  have hn' : some c9wHref = some href := hn
  have hh : href = c9wHref := (Option.some.inj hn').symm
  rw [hh] at hst0
  exact absurd hst0 (by decide)

/-- Claim C7 (amended): the self-healing rule applies per page of a
multi-page thread — a page whose expected page file already exists with more
than 200 bytes is not rewritten and its URL ends up in the completed-page
list even when the ledger did not list it; such a page is also not re-fetched
unless it is the thread's own URL (the thread's first page is always fetched
to discover pagination). Single-page threads are exempt: their file is
re-fetched and rewritten regardless of existing output (see the
counterexample). -/
theorem claim_C7_self_healing (render : QUrl → Option Html)
    (fs₀ : List (FPath × Nat)) (sd : String) (tu : QUrl) (tt : String)
    (ss₀ : SectionState) (html : Html)
    (hr : render tu = some html)
    (hmulti : 1 < (discover_thread_pages tu html).length) :
    ∀ st pg, (st, pg) ∈ discover_thread_pages tu html →
      fsBig fs₀ (page_path sd (get_thread_id tu) tt st) = true →
      (pg ∈ (save_thread render fs₀ sd tu tt ss₀).ss.thread_pages_done ∧
       page_path sd (get_thread_id tu) tt st ∉
         (save_thread render fs₀ sd tu tt ss₀).wrote ∧
       (st ≠ 0 → pg ≠ tu →
         pg ∉ (save_thread render fs₀ sd tu tt ss₀).fetched)) := by
  intro st pg hmem hbig
  have hlen : ¬ (discover_thread_pages tu html).length ≤ 1 := not_le.mpr hmulti
  simp only [save_thread, hr, if_neg hlen]
  refine ⟨?_, ?_, ?_⟩
  · exact save_pages_big_done render html sd (get_thread_id tu) tt
      (discover_thread_pages tu html) ⟨fs₀, ss₀.thread_pages_done, 0, [tu], []⟩
      st pg hmem hbig
  · obtain ⟨Δw, he, hp⟩ := save_pages_wrote render html sd (get_thread_id tu)
      tt (discover_thread_pages tu html)
      ⟨fs₀, ss₀.thread_pages_done, 0, [tu], []⟩
    rw [he]
    intro hmem'
    rcases List.mem_append.mp hmem' with h' | h'
    · exact absurd h' (List.not_mem_nil _)
    · have hff : fsBig fs₀ (page_path sd (get_thread_id tu) tt st) = false :=
        hp _ h'
      rw [hff] at hbig
      cases hbig
  · intro _hst0 hpgtu hmemf
    obtain ⟨Δf, he, hp⟩ := save_pages_fetched render html sd (get_thread_id tu)
      tt (discover_thread_pages tu html)
      ⟨fs₀, ss₀.thread_pages_done, 0, [tu], []⟩
    rw [he] at hmemf
    rcases List.mem_append.mp hmemf with h' | h'
    · have h'' : pg ∈ [tu] := h'
      exact hpgtu (List.mem_singleton.mp h'')
    · obtain ⟨st', hmem', _, hfb'⟩ := hp pg h'
      have hst'eq : st' = st := by
        rcases dtp_parse tu html (st', pg) hmem' with ⟨_, hptu⟩ | hps
        · exact absurd hptu hpgtu
        · rcases dtp_parse tu html (st, pg) hmem with ⟨_, hptu⟩ | hps2
          · exact absurd hptu hpgtu
          · exact Option.some.inj (hps.symm.trans hps2)
      have hfb'' : fsBig fs₀ (page_path sd (get_thread_id tu) tt st) = false := by
        rw [← hst'eq]
        exact hfb'
      rw [hfb''] at hbig
      cases hbig

theorem claim_C7_self_healing_counterexample :
    fsBig c7Fs c7Path = true ∧
    (save_thread c7render c7Fs "S" c7Tu "T" ⟨[], [], []⟩).wrote = [c7Path] ∧
    c7Tu ∈ (save_thread c7render c7Fs "S" c7Tu "T" ⟨[], [], []⟩).fetched :=
  ⟨by decide, by decide, by decide⟩

theorem claim_C7_self_healing_witness :
    c7wHref ∈
      (save_thread c7wRender c7wFs "S" c7wTu "T" ⟨[], [], []⟩).ss.thread_pages_done ∧
    page_path "S" (get_thread_id c7wTu) "T" 30 ∉
      (save_thread c7wRender c7wFs "S" c7wTu "T" ⟨[], [], []⟩).wrote ∧
    c7wHref ∉ (save_thread c7wRender c7wFs "S" c7wTu "T" ⟨[], [], []⟩).fetched := by
  have h := claim_C7_self_healing c7wRender c7wFs "S" c7wTu "T" ⟨[], [], []⟩
    c7wHtml (by decide) (by decide) 30 c7wHref (by decide) (by decide)
  exact ⟨h.1, h.2.1, h.2.2 (by decide) (by decide)⟩

/-! ### The video reference index -/

theorem add_video_lookup_new (d : List (String × VideoEntry)) (i s p : String)
    (h : alookup d i = none) :
    alookup (add_video d i s p) i =
      some ⟨canonical_yt_url i, none, [s], [p], VStatus.pending, none⟩ := by
  unfold add_video
  rw [h]
  simp only [Option.isSome_none, Bool.false_eq_true, if_false]
  rw [alookup_amodify_self, alookup_append_of_none _ h]
  simp [alookup]

theorem add_video_lookup_exist (d : List (String × VideoEntry)) (i s p : String)
    (e : VideoEntry) (h : alookup d i = some e) :
    alookup (add_video d i s p) i =
      some (
        (fun e =>
          let e₁ := if s ∈ e.sections then e
                    else { e with sections := e.sections ++ [s] }
          if p ∈ e₁.source_pages then e₁
          else { e₁ with source_pages := e₁.source_pages ++ [p] }) e) := by
  unfold add_video
  rw [h]
  simp only [Option.isSome_some, if_true]
  rw [alookup_amodify_self, h]
  rfl

theorem alookup_add_video_ne (d : List (String × VideoEntry))
    (i s p j : String) (hij : j ≠ i) :
    alookup (add_video d i s p) j = alookup d j := by
  unfold add_video
  rcases hl : alookup d i with _ | e
  · simp only [Option.isSome_none, Bool.false_eq_true, if_false]
    rw [alookup_amodify_ne _ _ _ _ hij]
    rcases hj : alookup d j with _ | v
    · rw [alookup_append_of_none _ hj]
      simp [alookup, Ne.symm hij]
    · rw [alookup_append_of_some _ hj]
  · simp only [Option.isSome_some, if_true]
    exact alookup_amodify_ne _ _ _ _ hij

/-- The merge function of `add_video` never touches the status field. -/
theorem add_mod_status (e : VideoEntry) (s p : String) :
    ((fun e =>
      let e₁ := if s ∈ e.sections then e
                else { e with sections := e.sections ++ [s] }
      if p ∈ e₁.source_pages then e₁
      else { e₁ with source_pages := e₁.source_pages ++ [p] }) e).status =
      e.status := by
  by_cases h1 : s ∈ e.sections
  · simp only [if_pos h1]
    by_cases h2 : p ∈ e.source_pages
    · simp [h2]
    · simp [h2]
  · simp only [if_neg h1]
    by_cases h2 : p ∈ ({ e with sections := e.sections ++ [s] } : VideoEntry).source_pages
    · simp [h2]
    · simp [h2]

theorem keys_add_video_new (d : List (String × VideoEntry)) (i s p : String)
    (h : alookup d i = none) :
    (add_video d i s p).map Prod.fst = d.map Prod.fst ++ [i] := by
  unfold add_video
  rw [h]
  simp only [Option.isSome_none, Bool.false_eq_true, if_false]
  rw [keys_amodify]
  simp

theorem keys_add_video_exist (d : List (String × VideoEntry)) (i s p : String)
    (h : (alookup d i).isSome = true) :
    (add_video d i s p).map Prod.fst = d.map Prod.fst := by
  unfold add_video
  rw [if_pos h, keys_amodify]

theorem get_status_add_video (d : List (String × VideoEntry))
    (i s p j : String) :
    get_status (add_video d i s p) j = get_status d j := by
  by_cases hij : j = i
  · subst hij
    rcases hl : alookup d j with _ | e
    · rw [get_status, add_video_lookup_new d j s p hl, get_status, hl]
    · rw [get_status, add_video_lookup_exist d j s p e hl, get_status, hl]
      exact add_mod_status e s p
  · rw [get_status, alookup_add_video_ne d i s p j hij, get_status]

theorem get_status_clear_failed (d : List (String × VideoEntry)) (j : String) :
    get_status (clear_failed d) j =
      (if get_status d j = VStatus.failed then VStatus.pending
       else get_status d j) := by
  induction d with
  | nil => simp [clear_failed, get_status, alookup]
  | cons e rest ih =>
    by_cases hf : e.2.status = VStatus.failed <;> by_cases hj : e.1 = j
    · simp [clear_failed, get_status, alookup, hf, hj, beq_iff_eq]
    · simp only [clear_failed, List.map_cons] at ih ⊢
      simp only [beq_iff_eq, if_pos hf, get_status, alookup, if_neg hj]
      simp only [get_status, beq_iff_eq] at ih
      exact ih
    · simp [clear_failed, get_status, alookup, hf, hj, beq_iff_eq]
    · simp only [clear_failed, List.map_cons] at ih ⊢
      simp only [beq_iff_eq, if_neg hf, get_status, alookup, if_neg hj]
      simp only [get_status, beq_iff_eq] at ih
      exact ih

/-- Claim C5: Reference-index merge — registering a fresh identifier creates
its entry at `pending` with null title and null local file and the section
and source page as singleton lists; a second registration from a distinct
section and source page appends both, each appearing exactly once in
first-seen order, leaving exactly one entry for the identifier and its
status, title and local file untouched. -/
theorem claim_C5_reference_merge (d : List (String × VideoEntry))
    (i s1 p1 s2 p2 : String)
    (h : alookup d i = none) (hs : s2 ≠ s1) (hp : p2 ≠ p1) :
    alookup (add_video d i s1 p1) i =
      some ⟨canonical_yt_url i, none, [s1], [p1], VStatus.pending, none⟩ ∧
    alookup (add_video (add_video d i s1 p1) i s2 p2) i =
      some ⟨canonical_yt_url i, none, [s1, s2], [p1, p2],
        VStatus.pending, none⟩ ∧
    ((add_video (add_video d i s1 p1) i s2 p2).map Prod.fst).count i = 1 := by
  have h1 := add_video_lookup_new d i s1 p1 h
  refine ⟨h1, ?_, ?_⟩
  · rw [add_video_lookup_exist (add_video d i s1 p1) i s2 p2 _ h1]
    have hs' : s2 ∉ [s1] := by simp [hs]
    have hp' : p2 ∉ [p1] := by simp [hp]
    simp [hs', hp', hs, hp]
  · -- exactly one entry: the keys of both `add_video`s are the keys of
    -- `d ++ [(i, fresh)]`, which contain `i` once
    have hkeys1 := keys_add_video_new d i s1 p1 h
    have hkeys2 := keys_add_video_exist (add_video d i s1 p1) i s2 p2
      (by rw [h1]; rfl)
    have hni : i ∉ d.map Prod.fst := by
      intro hmem
      rcases List.mem_map.mp hmem with ⟨q, hq, hqi⟩
      exact (alookup_eq_none_iff.mp h q hq) hqi
    rw [hkeys2, hkeys1, List.count_append, List.count_eq_zero.mpr hni]
    simp

theorem claim_C5_reference_merge_witness :
    alookup (add_video (add_video [] "v" "A" "x") "v" "B" "y") "v" =
      some ⟨canonical_yt_url "v", none, ["A", "B"], ["x", "y"],
        VStatus.pending, none⟩ :=
  (claim_C5_reference_merge [] "v" "A" "x" "B" "y" rfl (by decide)
    (by decide)).2.1

/-- Claim C6: Status monotonicity of the reference index — `add_video` never
changes any entry's status (in particular an entry at `downloaded` or
`unavailable` keeps it), and `clear_failed` resets exactly the `failed`
entries to `pending`, leaving every other entry untouched; on the scenario
index `{A: unavailable, B: failed, C: downloaded}` only `B` becomes
`pending` while the `A` and `C` entries are unchanged. -/
theorem claim_C6_status_monotonicity :
    (∀ (d : List (String × VideoEntry)) (i s p j : String),
      is_done d j = true →
      get_status (add_video d i s p) j = get_status d j) ∧
    (∀ (d : List (String × VideoEntry)) (j : String),
      get_status (clear_failed d) j =
        (if get_status d j = VStatus.failed then VStatus.pending
         else get_status d j)) ∧
    (get_status (clear_failed c6demo) "A" = VStatus.unavailable ∧
     get_status (clear_failed c6demo) "B" = VStatus.pending ∧
     get_status (clear_failed c6demo) "C" = VStatus.downloaded ∧
     alookup (clear_failed c6demo) "A" = alookup c6demo "A" ∧
     alookup (clear_failed c6demo) "C" = alookup c6demo "C") := by
  refine ⟨fun d i s p j _ => get_status_add_video d i s p j,
    get_status_clear_failed, ?_⟩
  exact ⟨by decide, by decide, by decide, by decide, by decide⟩

theorem claim_C6_status_monotonicity_witness :
    is_done c6demo "C" = true ∧
    get_status (add_video c6demo "C" "S2" "pX") "C" = get_status c6demo "C" :=
  ⟨by decide, claim_C6_status_monotonicity.1 c6demo "C" "S2" "pX" "C"
    (by decide)⟩

/-- Claim C10: an identifier absent from the index data is reported as
`pending` by `get_status` and as not done by `is_done`, rather than raising
or being skipped. -/
theorem claim_C10_unknown_pending (d : List (String × VideoEntry))
    (v : String) (h : alookup d v = none) :
    get_status d v = VStatus.pending ∧ is_done d v = false := by
  constructor
  · rw [get_status, h]
  · rw [is_done, get_status, h]
    decide

theorem claim_C10_unknown_pending_witness :
    get_status [] "dQw4w9WgXcQ" = VStatus.pending ∧
    is_done [] "dQw4w9WgXcQ" = false :=
  claim_C10_unknown_pending [] "dQw4w9WgXcQ" rfl

/-- Claim C8 (amended): Tier-2 HTML rejection — for an image element whose
resolved URL misses the Tier-1 cache (under both key forms), if the
authenticated fallback fetch returns a response whose Content-Type contains
`text/html`, or a body of fewer than 100 bytes, or a non-success status, the
element is left unchanged (its `src` keeps the original remote URL) and no
entry is inserted into the image cache. A body of exactly 100 bytes passes
the `len(data) < 100` check and is embedded and cached (see the
counterexample). -/
theorem claim_C8_html_rejection (get : String → Option HttpResp)
    (cache : List (String × String × List Nat)) (pu : String) (img : ImgTag)
    (src full_src : String) (resp : HttpResp)
    (h1 : img_src_candidate img = some src)
    (h2 : strStartsWith src "data:" = false)
    (h3 : normalize_url_str src pu = some full_src)
    (h4 : get_data_uri cache full_src = none)
    (h5 : get_data_uri cache src = none)
    (h6 : get full_src = some resp)
    (h7 : strContains (strLower resp.contentType) "text/html" = true ∨
      resp.body.length < 100 ∨ resp.ok = false) :
    embed_one_img (download_image_requests get) cache pu img = (img, cache) := by
  have hdl : download_image_requests get full_src = none := by
    unfold download_image_requests
    simp only [h6]
    rcases h7 with h | h | h
    · by_cases hok : resp.ok = false
      · rw [if_pos hok]
      · rw [if_neg hok, if_pos h]
    · by_cases hok : resp.ok = false
      · rw [if_pos hok]
      · rw [if_neg hok]
        by_cases hhtml : strContains (strLower resp.contentType) "text/html" = true
        · rw [if_pos hhtml]
        · rw [if_neg hhtml, if_pos h]
    · rw [if_pos h]
  simp only [embed_one_img, h1, h2, h3, h4, h5, hdl, Bool.false_eq_true,
    if_false]

set_option maxRecDepth 40000 in
theorem claim_C8_html_rejection_counterexample :
    c8Resp.body.length = 100 ∧ c8Resp.ok = true ∧
    strContains (strLower c8Resp.contentType) "text/html" = false ∧
    get_data_uri [] "http://h/a.png" = none ∧
    attr_get (embed_one_img (download_image_requests c8get) [] "http://h/t"
      c8Img).1 "src" ≠ some "http://h/a.png" ∧
    cache_get (embed_one_img (download_image_requests c8get) [] "http://h/t"
      c8Img).2 "http://h/a.png" ≠ none := by
  refine ⟨by decide, by decide, by decide, by decide, by decide, by decide⟩

set_option maxRecDepth 40000 in
theorem claim_C8_html_rejection_witness :
    embed_one_img (download_image_requests c8wGet) [] "http://h/t" c8Img =
      (c8Img, []) :=
  claim_C8_html_rejection c8wGet [] "http://h/t" c8Img "http://h/a.png"
    "http://h/a.png" c8wResp (by decide) (by decide) (by decide) rfl rfl
    (by decide) (Or.inl (by decide))

end YtpBackup
